import Mathlib

/-!
Shallow embedding of the force-field evaluator in
`ffevaluation/ffevaluate.py` and proofs about it.

Conventions of the embedding:
* machine floats become an arbitrary linear ordered field `F`
  (exact arithmetic); transcendental primitives (`sqrt`, `acos`, `cos`,
  `sin`, the constant `pi`, the constant `2 ^ (-1/6)`, the Coulomb
  prefactor computed from physical constants) are abstract fields of
  `NumOps`, as are the minimum-image wrappers and the dihedral-angle
  routine that live in the separate `numbautil` module;
* the NaN sentinel used inside packed parameter rows becomes `none` in
  `Option F`; the `-1` index sentinel stays the integer `-1`;
* numpy arrays become lists of rows (`List (List _)`) or functions out of
  `Fin`; imperative accumulation into zero-initialised arrays becomes the
  corresponding sums;
* Python exceptions raised during construction become `Except InitError`.
-/

namespace FFEval

variable {F : Type} [LinearOrderedField F]

/-- Numeric primitives drawn from `math`, `scipy.constants` and from the
`numbautil` module.  `wrapDist`, `wrapBonded` and `dihAngle` model
`wrapDistance`, `wrapBondedDistance` and `dihedralAngleFull`, whose
source is outside the embedded file; the spec describes them (minimum
image convention, dihedral angle with its three bond vectors) and no
claim below depends on their concrete values, so they are kept abstract
parameters of the whole development.  `dihAngle pos box` returns
`(phi, r12, r23, r34)`. -/
structure NumOps (F : Type) where
  sqrt : F → F
  acos : F → F
  cos : F → F
  sin : F → F
  pi : F
  root2inv6 : F
  elecFactorConst : F
  wrapDist : F → F → F
  wrapBonded : F → F → F
  dihAngle : (Fin 4 → Fin 3 → F) → (Fin 3 → F) → F × (Fin 3 → F) × (Fin 3 → F) × (Fin 3 → F)

/-- Scan of one packed index row up to the `-1` sentinel, returning the
column of the first entry equal to `j`.  This is the loop shared by
`_ispaired`, `_evaluate_harmonic_bonds` and the 1-4 scale lookups in
`_getSigmaEpsilon` / `_evaluate_elec`. -/
def scanFind (row : List ℤ) (j : ℤ) : Option ℕ :=
  match row with
  | [] => none
  | e :: rest =>
    if e = -1 then none
    else if e = j then some 0
    else (scanFind rest j).map (· + 1)

/-- `_ispaired(tbl, i, j)`: scan row `i` of the packed table for `j`,
stopping at the `-1` sentinel. -/
def ispaired (tbl : List (List ℤ)) (i : ℕ) (j : ℤ) : Bool :=
  (scanFind (tbl.getD i []) j).isSome

/-- The first element of `s` equal to `i` or to `j` (`i` tested first on
each element, as in the two loops of `_insets`): `some true` if that
element is `i`, `some false` if it is `j`, `none` if neither occurs. -/
def findIJ (s : List ℤ) (i j : ℤ) : Option Bool :=
  match s with
  | [] => none
  | e :: rest =>
    if e = i then some true
    else if e = j then some false
    else findIJ rest i j

/-- `_insets(i, j, set1, set2)`: after swapping so that the first set is
the shorter one, run the two break-on-first-hit loops of the source and
combine the `ifound` / `jfound` flags. -/
def insets (i j : ℤ) (set1 set2 : List ℤ) : Bool :=
  let p := if set2.length < set1.length then (set2, set1) else (set1, set2)
  match findIJ p.1 i j with
  | none => false
  | some b1 =>
    match findIJ p.2 i j with
    | none => false
    | some b2 => b1 != b2

/-- Result record of `_getSigmaEpsilon`. -/
structure LJP (F : Type) where
  sig : F
  eps : F
  A : F
  B : F
  scale : F

/-- The tail of `_getSigmaEpsilon`: derive `A`, `B` from `sig`, `eps`. -/
def mkLJP (sig eps scale : F) : LJP F :=
  let s2 := sig * sig
  let s6 := s2 * s2 * s2
  let s12 := s6 * s6
  ⟨sig, eps, eps * 4 * s12, eps * 4 * s6, scale⟩

/-- `_getSigmaEpsilon`: NBFix lookup for the unordered type pair, 1-4
scale lookup, then either the NBFix parameters or the Lorentz-Berthelot
combination of the per-type parameters.  The NBFix row layout is
`(idx1, idx2, eps, sig, eps14, sig14)`. -/
def getSigmaEpsilon (i : ℕ) (j : ℤ) (it jt : ℕ)
    (nbfix : List (ℤ × ℤ × F × F × F × F))
    (sigma sigma14 epsilon epsilon14 : List F)
    (s14a : List (List ℤ)) (s14v : List (List (Option F)))
    (ops : NumOps F) : LJP F :=
  let nb := nbfix.find? (fun r =>
    (decide (r.1 = (it : ℤ)) && decide (r.2.1 = (jt : ℤ))) ||
    (decide (r.1 = (jt : ℤ)) && decide (r.2.1 = (it : ℤ))))
  let col14 := scanFind (s14a.getD i []) j
  let scale : F :=
    match col14 with
    | none => 1
    | some c => ((s14v.getD i []).getD c none).getD 0
  match nb with
  | some r =>
    let eps := if col14.isSome then r.2.2.2.2.1 else r.2.2.1
    let sig := if col14.isSome then r.2.2.2.2.2 else r.2.2.2.1
    mkLJP sig eps scale
  | none =>
    let sigmai := if col14.isSome then sigma14.getD it 0 else sigma.getD it 0
    let sigmaj := if col14.isSome then sigma14.getD jt 0 else sigma.getD jt 0
    let epsiloni := if col14.isSome then epsilon14.getD it 0 else epsilon.getD it 0
    let epsilonj := if col14.isSome then epsilon14.getD jt 0 else epsilon.getD jt 0
    mkLJP ((1 / 2 : F) * (sigmai + sigmaj)) (ops.sqrt (epsiloni * epsilonj)) scale

/-- `_evaluate_lj`: Lennard-Jones potential and radial force magnitude. -/
def evaluate_lj {n : ℕ} (i j : Fin n) (typeint : Fin n → ℕ)
    (nbfix : List (ℤ × ℤ × F × F × F × F))
    (sigma sigma14 epsilon epsilon14 : List F)
    (s14a : List (List ℤ)) (s14v : List (List (Option F)))
    (dist : F) (ops : NumOps F) : F × F :=
  let p := getSigmaEpsilon i.val (j.val : ℤ) (typeint i) (typeint j)
    nbfix sigma sigma14 epsilon epsilon14 s14a s14v ops
  let rinv1 := 1 / dist
  let rinv2 := rinv1 * rinv1
  let rinv6 := rinv2 * rinv2 * rinv2
  let rinv12 := rinv6 * rinv6
  (((p.A * rinv12) - (p.B * rinv6)) / p.scale,
   (-12 * p.A * rinv12 + 6 * p.B * rinv6) * rinv1 / p.scale)

/-- `_evaluate_harmonic_bonds`: scan the bonded-neighbour row; if `j` is
found at column `col`, read `(k0, d0)` from the parallel value row. -/
def evaluate_harmonic_bonds (i : ℕ) (j : ℤ)
    (bonda : List (List ℤ)) (bondv : List (List (Option F))) (dist : F) : F × F :=
  match scanFind (bonda.getD i []) j with
  | none => (0, 0)
  | some col =>
    let k0 := ((bondv.getD i []).getD (col * 2) none).getD 0
    let d0 := ((bondv.getD i []).getD (col * 2 + 1) none).getD 0
    let x := dist - d0
    (k0 * x ^ 2, 2 * k0 * x)

/-- `_evaluate_elec`: Coulomb with optional reaction-field approximation.
The 1-4 electrostatic scale is looked up in `e14a` / `e14v`. -/
def evaluate_elec {n : ℕ} (i j : Fin n) (charge : Fin n → F)
    (e14a : List (List ℤ)) (e14v : List (List (Option F)))
    (ELEC_FACTOR dist : F) (rfa : Bool) (solventDielectric cutoff : F) : F × F :=
  let scale : F :=
    match scanFind (e14a.getD i.val []) (j.val : ℤ) with
    | none => 1
    | some c => ((e14v.getD i.val []).getD c none).getD 0
  if rfa then
    let denom := 2 * solventDielectric + 1
    let krf := (1 / cutoff ^ 3) * (solventDielectric - 1) / denom
    let crf := (1 / cutoff) * (3 * solventDielectric) / denom
    let common := ELEC_FACTOR * charge i * charge j / scale
    let dist2 := dist ^ 2
    (common * ((1 / dist) + krf * dist2 - crf),
     common * (2 * krf * dist - 1 / dist2))
  else
    let pot := ELEC_FACTOR * charge i * charge j / dist / scale
    (pot, -pot / dist)

/-- The force triple built at the end of `_evaluate_angles`:
`force[1] = -(force[0] + force[2])`. -/
def angleForce (f0 f2 : Fin 3 → F) : Fin 3 → Fin 3 → F :=
  fun a =>
    if a = 0 then f0
    else if a = 2 then f2
    else fun k => -(f0 k + f2 k)

/-- `_evaluate_angles`: harmonic angle potential with the analytic force
distribution of the source. -/
def evaluate_angles (ops : NumOps F) (pos : Fin 3 → Fin 3 → F)
    (angle_params : F × F) (box : Fin 3 → F) : F × (Fin 3 → Fin 3 → F) :=
  let k0 := angle_params.1
  let theta0 := angle_params.2
  let r23 := fun k => ops.wrapBonded (pos 2 k - pos 1 k) (box k)
  let r21 := fun k => ops.wrapBonded (pos 0 k - pos 1 k) (box k)
  let dotprod := ∑ k : Fin 3, r23 k * r21 k
  let norm23 := ∑ k : Fin 3, r23 k * r23 k
  let norm21 := ∑ k : Fin 3, r21 k * r21 k
  let norm23inv := 1 / ops.sqrt norm23
  let norm21inv := 1 / ops.sqrt norm21
  let ct0 := dotprod * norm21inv * norm23inv
  let ct1 := if ct0 < -1 then -1 else ct0
  let cos_theta := if ct1 > 1 then 1 else ct1
  let theta := ops.acos cos_theta
  let delta_theta := theta - theta0
  let pot := k0 * delta_theta * delta_theta
  let sin_theta := ops.sqrt (1 - cos_theta * cos_theta)
  let coef := if sin_theta ≠ 0 then -2 * k0 * delta_theta / sin_theta else 0
  let f0 := fun k => coef * (cos_theta * r21 k * norm21inv - r23 k * norm23inv) * norm21inv
  let f2 := fun k => coef * (cos_theta * r23 k * norm23inv - r21 k * norm21inv) * norm23inv
  (pot, angleForce f0 f2)

/-- Modelled from the spec: `dot` of the numeric utility module is the
standard three-vector dot product. -/
def dot3 (a b : Fin 3 → F) : F := a 0 * b 0 + a 1 * b 1 + a 2 * b 2

/-- Modelled from the spec: `cross` of the numeric utility module is the
standard three-vector cross product. -/
def cross3 (a b : Fin 3 → F) : Fin 3 → F :=
  fun k =>
    if k = 0 then a 1 * b 2 - a 2 * b 1
    else if k = 1 then a 2 * b 0 - a 0 * b 2
    else a 0 * b 1 - a 1 * b 0

/-- The single two-pi shift that the torsion kernel applies to
`phi - phi0` in the non-periodic (harmonic improper) branch. -/
def wrapDiff (piv d : F) : F :=
  if d < -piv then d + 2 * piv
  else if d > piv then d - 2 * piv
  else d

/-- One Fourier / harmonic component of `_evaluate_torsion`: the pair of
contributions `(potential, dU/dphi)` for parameters `(k0, phi0, per)`. -/
def torsionTerm (ops : NumOps F) (phi : F) (p : F × F × F) : F × F :=
  if p.2.2 > 0 then
    (p.1 * (1 + ops.cos (p.2.2 * phi - p.2.1)),
     -p.2.2 * p.1 * ops.sin (p.2.2 * phi - p.2.1))
  else
    (p.1 * wrapDiff ops.pi (phi - p.2.1) ^ 2,
     2 * p.1 * wrapDiff ops.pi (phi - p.2.1))

/-- Number of torsion components of a packed row: the scan of
`_evaluate_torsion` that stops at the first NaN (here `none`). -/
def ntorsionsOf (row : List (Option F)) : ℕ :=
  match row.findIdx? (fun x => x.isNone) with
  | some i => i / 3
  | none => row.length / 3

/-- Read component `t` (a `(k0, phi0, per)` triple) of a packed torsion
parameter row. -/
def getTorsionParam (row : List (Option F)) (t : ℕ) : F × F × F :=
  ((row.getD (t * 3) none).getD 0,
   (row.getD (t * 3 + 1) none).getD 0,
   (row.getD (t * 3 + 2) none).getD 0)

/-- The force quadruple built at the end of `_evaluate_torsion`:
`(-f1, f1 + s, f4 - s, -f4)`. -/
def torsionForce (f1 f4 sv : Fin 3 → F) : Fin 4 → Fin 3 → F :=
  fun d =>
    if d = 0 then fun k => -f1 k
    else if d = 1 then fun k => f1 k + sv k
    else if d = 2 then fun k => f4 k - sv k
    else fun k => -f4 k

/-- `_evaluate_torsion`: sum of periodic / harmonic components followed by
the chain-rule force distribution taken from OpenMM. -/
def evaluate_torsion (ops : NumOps F) (pos : Fin 4 → Fin 3 → F)
    (torsionparam : List (Option F)) (box : Fin 3 → F) :
    F × (Fin 4 → Fin 3 → F) :=
  let nt := ntorsionsOf torsionparam
  let dih := ops.dihAngle pos box
  let phi := dih.1
  let r12 := dih.2.1
  let r23 := dih.2.2.1
  let r34 := dih.2.2.2
  let pot := ∑ t ∈ Finset.range nt, (torsionTerm ops phi (getTorsionParam torsionparam t)).1
  let coef := ∑ t ∈ Finset.range nt, (torsionTerm ops phi (getTorsionParam torsionparam t)).2
  let cross1 := cross3 r12 r23
  let cross2 := cross3 r23 r34
  let norm2Delta2 := dot3 r23 r23
  let normDelta2 := ops.sqrt norm2Delta2
  let normCross1 := dot3 cross1 cross1
  let normCross2 := dot3 cross2 cross2
  let ff0 := (-coef * normDelta2) / normCross1
  let ff3 := (coef * normDelta2) / normCross2
  let ff1 := dot3 r12 r23 / norm2Delta2
  let ff2 := dot3 r34 r23 / norm2Delta2
  let force1 := fun k => ff0 * cross1 k
  let force4 := fun k => ff3 * cross2 k
  let sv := fun k => ff1 * force1 k - ff2 * force4 k
  (pot, torsionForce force1 force4 sv)

/-- The arrays returned by `init` (the topology indexer), in source
order.  `ELEC_FACTOR` is called `elecFactor`. -/
structure InitOut (F : Type) (n : ℕ) where
  typeint : Fin n → ℕ
  excl : List (List ℤ)
  nbfix : List (ℤ × ℤ × F × F × F × F)
  sigma : List F
  sigma14 : List F
  epsilon : List F
  epsilon14 : List F
  s14a : List (List ℤ)
  e14a : List (List ℤ)
  s14v : List (List (Option F))
  e14v : List (List (Option F))
  bonda : List (List ℤ)
  bondv : List (List (Option F))
  elecFactor : F
  charge : Fin n → F
  angles : List (Fin 3 → Fin n)
  angle_params : List (F × F)
  dihedrals : List (Fin 4 → Fin n)
  dihedral_params : List (List (Option F))
  impropers : List (Fin 4 → Fin n)
  improper_params : List (F × F × F)

/-- The configuration arguments appended to the `init` output by the
constructor: between-sets, cutoff, reaction field flag, dielectric. -/
structure FFConfig (F : Type) where
  set1 : List ℤ
  set2 : List ℤ
  cutoff : F
  rfa : Bool
  solventDielectric : F

/-- `usersets = (len(set1) > 0) | (len(set2) > 0)` of `_ffevaluate`. -/
def FFConfig.usersets (c : FFConfig F) : Bool :=
  (0 < c.set1.length) || (0 < c.set2.length)

/-- The quantities one non-skipped iteration of the pair loop of
`_ffevaluate` accumulates: the three pair potentials, the summed radial
force coefficient and the unit direction vector. -/
structure PairTerms (F : Type) where
  potBo : F
  potLj : F
  potEl : F
  coeff : F
  dirUnit : Fin 3 → F

/-- The minimum-image component vector of the pair `(i, j)`. -/
def pairDvec (ops : NumOps F) {n : ℕ} (coords : Fin n → Fin 3 → F)
    (box : Fin 3 → F) (i j : Fin n) : Fin 3 → F :=
  fun k => ops.wrapDist (coords i k - coords j k) (box k)

/-- The pair distance of `_ffevaluate`:
`sqrt` of the summed squared components. -/
def pairDist (ops : NumOps F) {n : ℕ} (coords : Fin n → Fin 3 → F)
    (box : Fin 3 → F) (i j : Fin n) : F :=
  ops.sqrt (∑ k : Fin 3, pairDvec ops coords box i j k * pairDvec ops coords box i j k)

/-- One iteration of the pair loop of `_ffevaluate` for the ordered pair
`(i, j)`:  `none` when one of the three `continue` statements fires
(between-sets miss, pure exclusion, beyond cutoff), otherwise the
accumulated pair terms. -/
def pairEval (ops : NumOps F) {n : ℕ} (a : InitOut F n) (cfg : FFConfig F)
    (coords : Fin n → Fin 3 → F) (box : Fin 3 → F) (i j : Fin n) :
    Option (PairTerms F) :=
  let isbonded := ispaired a.bonda i.val (j.val : ℤ)
  let isexcluded := ispaired a.excl i.val (j.val : ℤ)
  let ins := insets (i.val : ℤ) (j.val : ℤ) cfg.set1 cfg.set2
  if cfg.usersets && !ins then none
  else if isexcluded && !isbonded then none
  else
    let dist := pairDist ops coords box i j
    let u := fun k => pairDvec ops coords box i j k / dist
    if cfg.cutoff ≠ 0 ∧ dist > cfg.cutoff then none
    else
      let bo := if isbonded then evaluate_harmonic_bonds i.val (j.val : ℤ) a.bonda a.bondv dist else (0, 0)
      let lj := if !isexcluded then
          evaluate_lj i j a.typeint a.nbfix a.sigma a.sigma14 a.epsilon a.epsilon14 a.s14a a.s14v dist ops
        else (0, 0)
      let el := if !isexcluded then
          evaluate_elec i j a.charge a.e14a a.e14v a.elecFactor dist cfg.rfa cfg.solventDielectric cfg.cutoff
        else (0, 0)
      some ⟨bo.1, lj.1, el.1, bo.2 + lj.2 + el.2, u⟩

/-- Contribution of a pair-loop iteration to the energy row `c`
(`0` bond, `1` LJ, `2` electrostatic). -/
def pairEnergies (t : Option (PairTerms F)) (c : Fin 6) : F :=
  match t with
  | none => 0
  | some t =>
    if c = 0 then t.potBo
    else if c = 1 then t.potLj
    else if c = 2 then t.potEl
    else 0

/-- Contribution of the pair-loop iteration for `(i, j)` to the force on
atom `b`, axis `k`:  `-coeff * u` on `i` and `+coeff * u` on `j`. -/
def pairForceOn {n : ℕ} (i j : Fin n) (t : Option (PairTerms F))
    (b : Fin n) (k : Fin 3) : F :=
  match t with
  | none => 0
  | some t =>
    (if b = i then -(t.coeff * t.dirUnit k) else 0) +
    (if b = j then t.coeff * t.dirUnit k else 0)

/-- Contribution of the pair-loop iteration for `(i, j)` to the per-atom
energy attribution of atom `b`, column `c`: half of each pair potential
to each endpoint. -/
def pairAtmnrgOn {n : ℕ} (i j : Fin n) (t : Option (PairTerms F))
    (b : Fin n) (c : Fin 6) : F :=
  match t with
  | none => 0
  | some t =>
    let v : F :=
      if c = 0 then t.potBo
      else if c = 1 then t.potLj
      else if c = 2 then t.potEl
      else 0
    (if b = i then v * (1 / 2) else 0) + (if b = j then v * (1 / 2) else 0)

/-- The ordered pairs `i < j` the pair loop runs over. -/
def pairsFinset (n : ℕ) : Finset (Fin n × Fin n) :=
  Finset.univ.filter (fun p => p.1 < p.2)

/-- Angle-loop iteration: the potential of one angle record. -/
def angleRecEnergy (ops : NumOps F) {n : ℕ} (coords : Fin n → Fin 3 → F)
    (box : Fin 3 → F) (r : (Fin 3 → Fin n) × (F × F)) : F :=
  (evaluate_angles ops (fun t => coords (r.1 t)) r.2 box).1

/-- Angle-loop iteration: contribution to the force on atom `b`. -/
def angleRecForceOn (ops : NumOps F) {n : ℕ} (coords : Fin n → Fin 3 → F)
    (box : Fin 3 → F) (r : (Fin 3 → Fin n) × (F × F)) (b : Fin n) (k : Fin 3) : F :=
  ∑ t : Fin 3, if r.1 t = b then (evaluate_angles ops (fun u => coords (r.1 u)) r.2 box).2 t k else 0

/-- Angle-loop iteration: contribution to column 3 of the attribution of
atom `b` (one third of the potential per member atom). -/
def angleRecAtmOn (ops : NumOps F) {n : ℕ} (coords : Fin n → Fin 3 → F)
    (box : Fin 3 → F) (r : (Fin 3 → Fin n) × (F × F)) (b : Fin n) : F :=
  ∑ t : Fin 3, if r.1 t = b then (evaluate_angles ops (fun u => coords (r.1 u)) r.2 box).1 / 3 else 0

/-- Torsion-loop iteration (dihedral or improper): the potential. -/
def torsionRecEnergy (ops : NumOps F) {n : ℕ} (coords : Fin n → Fin 3 → F)
    (box : Fin 3 → F) (r : (Fin 4 → Fin n) × List (Option F)) : F :=
  (evaluate_torsion ops (fun t => coords (r.1 t)) r.2 box).1

/-- Torsion-loop iteration: contribution to the force on atom `b`. -/
def torsionRecForceOn (ops : NumOps F) {n : ℕ} (coords : Fin n → Fin 3 → F)
    (box : Fin 3 → F) (r : (Fin 4 → Fin n) × List (Option F)) (b : Fin n) (k : Fin 3) : F :=
  ∑ t : Fin 4, if r.1 t = b then (evaluate_torsion ops (fun u => coords (r.1 u)) r.2 box).2 t k else 0

/-- Torsion-loop iteration: contribution to the attribution of atom `b`
(one quarter of the potential per member atom). -/
def torsionRecAtmOn (ops : NumOps F) {n : ℕ} (coords : Fin n → Fin 3 → F)
    (box : Fin 3 → F) (r : (Fin 4 → Fin n) × List (Option F)) (b : Fin n) : F :=
  ∑ t : Fin 4, if r.1 t = b then (evaluate_torsion ops (fun u => coords (r.1 u)) r.2 box).1 / 4 else 0

/-- An improper parameter row `(k, phase, per)` as a packed torsion row
of width three (no sentinel), as `improper_params[i, :]` is passed to
`_evaluate_torsion`. -/
def improperParamRow (p : F × F × F) : List (Option F) :=
  [some p.1, some p.2.1, some p.2.2]

/-- Frame energies row of `_ffevaluate`: sum of the pair contributions,
plus (when no between-sets are active) the angle sum into row 3, the
dihedral sum into row 4 and the improper sum into row 5. -/
def totalEnergies (ops : NumOps F) {n : ℕ} (a : InitOut F n) (cfg : FFConfig F)
    (coords : Fin n → Fin 3 → F) (box : Fin 3 → F) : Fin 6 → F :=
  fun c =>
    (∑ p ∈ pairsFinset n, pairEnergies (pairEval ops a cfg coords box p.1 p.2) c)
    + (if cfg.usersets then 0 else
        (if c = 3 then ((a.angles.zip a.angle_params).map (fun r => angleRecEnergy ops coords box r)).sum else 0)
      + (if c = 4 then ((a.dihedrals.zip a.dihedral_params).map (fun r => torsionRecEnergy ops coords box r)).sum else 0)
      + (if c = 5 then ((a.impropers.zip (a.improper_params.map improperParamRow)).map (fun r => torsionRecEnergy ops coords box r)).sum else 0))

/-- Frame forces of `_ffevaluate`. -/
def totalForces (ops : NumOps F) {n : ℕ} (a : InitOut F n) (cfg : FFConfig F)
    (coords : Fin n → Fin 3 → F) (box : Fin 3 → F) : Fin n → Fin 3 → F :=
  fun b k =>
    (∑ p ∈ pairsFinset n, pairForceOn p.1 p.2 (pairEval ops a cfg coords box p.1 p.2) b k)
    + (if cfg.usersets then 0 else
        ((a.angles.zip a.angle_params).map (fun r => angleRecForceOn ops coords box r b k)).sum
      + ((a.dihedrals.zip a.dihedral_params).map (fun r => torsionRecForceOn ops coords box r b k)).sum
      + ((a.impropers.zip (a.improper_params.map improperParamRow)).map (fun r => torsionRecForceOn ops coords box r b k)).sum)

/-- Frame per-atom attribution of `_ffevaluate`. -/
def totalAtmnrg (ops : NumOps F) {n : ℕ} (a : InitOut F n) (cfg : FFConfig F)
    (coords : Fin n → Fin 3 → F) (box : Fin 3 → F) : Fin n → Fin 6 → F :=
  fun b c =>
    (∑ p ∈ pairsFinset n, pairAtmnrgOn p.1 p.2 (pairEval ops a cfg coords box p.1 p.2) b c)
    + (if cfg.usersets then 0 else
        (if c = 3 then ((a.angles.zip a.angle_params).map (fun r => angleRecAtmOn ops coords box r b)).sum else 0)
      + (if c = 4 then ((a.dihedrals.zip a.dihedral_params).map (fun r => torsionRecAtmOn ops coords box r b)).sum else 0)
      + (if c = 5 then ((a.impropers.zip (a.improper_params.map improperParamRow)).map (fun r => torsionRecAtmOn ops coords box r b)).sum else 0))

/-- The three outputs of `_ffevaluate` for one frame. -/
structure Outputs (F : Type) (n : ℕ) where
  energies : Fin 6 → F
  forces : Fin n → Fin 3 → F
  atmnrg : Fin n → Fin 6 → F

/-- One frame of `_ffevaluate`. -/
def ffevaluate1 (ops : NumOps F) {n : ℕ} (a : InitOut F n) (cfg : FFConfig F)
    (coords : Fin n → Fin 3 → F) (box : Fin 3 → F) : Outputs F n :=
  ⟨totalEnergies ops a cfg coords box,
   totalForces ops a cfg coords box,
   totalAtmnrg ops a cfg coords box⟩

/-- `_ffevaluate` over all frames: frames are independent, the outer loop
is a map over the (coords, box) frame pairs. -/
def ffevaluate (ops : NumOps F) {n : ℕ} (a : InitOut F n) (cfg : FFConfig F)
    (coordsFrames : List (Fin n → Fin 3 → F)) (boxFrames : List (Fin 3 → F)) :
    List (Outputs F n) :=
  (coordsFrames.zip boxFrames).map (fun cb => ffevaluate1 ops a cfg cb.1 cb.2)

/-! ### The topology indexer `init` and the constructor -/

/-- Errors raised while indexing the topology.  Atom types are interned
as natural numbers whose order models the alphabetical order of the type
names; the wildcard type `X` of parameter keys is `none` in
`Option ℕ`. -/
inductive InitError
  | missingAtomType
  | missingBondType
  | missingAngleType
  | missingDihedralType
  | emptyDihedralParam
  | missingImproperType
deriving DecidableEq

/-- The molecule input: per-atom types and charges plus the bonded
topology, as produced by the upstream topology reader. -/
structure Mol (F : Type) where
  natoms : ℕ
  atomtype : Fin natoms → ℕ
  charge : Fin natoms → F
  bonds : List (Fin natoms × Fin natoms)
  angles : List (Fin 3 → Fin natoms)
  dihedrals : List (Fin 4 → Fin natoms)
  impropers : List (Fin 4 → Fin natoms)

/-- One component of a dihedral parameter list. -/
structure DihComp (F : Type) where
  phi_k : F
  phase : F
  per : F
  scnb : F
  scee : F
deriving DecidableEq

/-- Per-type Lennard-Jones parameters. -/
structure AtomTypePrm (F : Type) where
  sigma : F
  epsilon : F
  sigma_14 : F
  epsilon_14 : F
deriving DecidableEq

/-- The parameter set, each table an insertion-ordered association list
(Python dictionaries preserve insertion order; wildcard scans use it).
The NBFix value is `(rmin, eps, rmin14, eps14)`. -/
structure PrmSet (F : Type) where
  atom_types : List (ℕ × AtomTypePrm F)
  bond_types : List (List ℕ × (F × F))
  angle_types : List (List ℕ × (F × F))
  dihedral_types : List (List (Option ℕ) × List (DihComp F))
  improper_types : List (List (Option ℕ) × (F × F))
  improper_periodic_types : List (List (Option ℕ) × (F × F × F))
  nbfix_types : List ((ℕ × ℕ) × (F × F × F × F))

/-- Ordered-dictionary lookup. -/
def alookup {K V : Type} [DecidableEq K] (tbl : List (K × V)) (k : K) : Option V :=
  (tbl.find? (fun p => decide (p.1 = k))).map (·.2)

/-- `math.radians`. -/
def radiansF (ops : NumOps F) (deg : F) : F := deg * ops.pi / 180

/-- `np.unique(mol.atomtype)`: the sorted list of distinct types. -/
def uqtypesOf {n : ℕ} (atomtype : Fin n → ℕ) : List ℕ :=
  List.insertionSort (· ≤ ·) (List.ofFn atomtype).dedup

/-- The inverse indexes of `np.unique`. -/
def typeintOf {n : ℕ} (atomtype : Fin n → ℕ) : Fin n → ℕ :=
  fun i => (uqtypesOf atomtype).indexOf (atomtype i)

/-- `uqtypes[typeint[a]]`, the interned type name of atom `a`. -/
def tyOfAtom {n : ℕ} (uq : List ℕ) (tyint : Fin n → ℕ) (a : Fin n) : ℕ :=
  uq.getD (tyint a) 0

/-- Append `x` at the end of row `i` of a per-atom table of rows. -/
def updAppend {n : ℕ} {α : Type} (f : Fin n → List α) (i : Fin n) (x : α) :
    Fin n → List α :=
  fun a => if a = i then f a ++ [x] else f a

/-- State of the bond loop of `init`: exclusion rows, bonded-neighbour
rows, bond parameter rows. -/
structure BondSt (F : Type) (n : ℕ) where
  excl : Fin n → List ℤ
  bonda : Fin n → List ℤ
  bondv : Fin n → List F

/-- One iteration of the bond loop of `init`: look up the bond type for
the (unsorted) type pair, then append the larger endpoint and the
`(k, req)` parameters to the rows of the smaller endpoint. -/
def bondStep {n : ℕ} (uq : List ℕ) (tyint : Fin n → ℕ) (prm : PrmSet F)
    (st : BondSt F n) (b : Fin n × Fin n) : Except InitError (BondSt F n) :=
  match alookup prm.bond_types [tyOfAtom uq tyint b.1, tyOfAtom uq tyint b.2] with
  | none => .error .missingBondType
  | some kv =>
    let b0 := if b.1 ≤ b.2 then b.1 else b.2
    let b1 := if b.1 ≤ b.2 then b.2 else b.1
    .ok ⟨updAppend st.excl b0 (b1.val : ℤ),
         updAppend st.bonda b0 (b1.val : ℤ),
         fun a => if a = b0 then st.bondv a ++ [kv.1, kv.2] else st.bondv a⟩

/-- The exclusion-row additions of the angle loop of `init`: append the
larger of the two end atoms to the row of the smaller. -/
def addAngleExcl {n : ℕ} (excl : Fin n → List ℤ) (angles : List (Fin 3 → Fin n)) :
    Fin n → List ℤ :=
  angles.foldl (fun ex ang =>
    let a0 := ang 0
    let a2 := ang 2
    let first := if a0 ≤ a2 then a0 else a2
    let second := if a0 ≤ a2 then a2 else a0
    updAppend ex first (second.val : ℤ)) excl

/-- The angle parameter rows of `init`: `(k, radians(theteq))` per
angle. -/
def buildAngleParams {n : ℕ} (ops : NumOps F) (uq : List ℕ) (tyint : Fin n → ℕ)
    (prm : PrmSet F) (angles : List (Fin 3 → Fin n)) : Except InitError (List (F × F)) :=
  angles.mapM (fun ang =>
    match alookup prm.angle_types
        [tyOfAtom uq tyint (ang 0), tyOfAtom uq tyint (ang 1), tyOfAtom uq tyint (ang 2)] with
    | none => Except.error InitError.missingAngleType
    | some kv => Except.ok (kv.1, radiansF ops kv.2))

/-- `wildcard_substituted` key matching: every position of the key is
either the wildcard or equal to the query type at that position. -/
def keyMatches (key ty : List (Option ℕ)) : Bool :=
  (key.zip ty).all (fun p => decide (p.1 = none) || decide (p.1 = p.2))

/-- `wildcard_substituted(type, params)`: scan the wildcard-bearing keys
in table order and return the first position-wise match, if any. -/
def wildcard_substituted (ty : List (Option ℕ)) (keys : List (List (Option ℕ))) :
    Option (List (Option ℕ)) :=
  (keys.filter (fun k => decide (none ∈ k))).find? (fun k => keyMatches k ty)

/-- The dihedral type resolution of `init`: exact lookup, reversed
lookup, then wildcard substitution (a missing substituted key is the
KeyError / RuntimeError of the source). -/
def dihLookup (prm : PrmSet F) (ty : List ℕ) : Except InitError (List (DihComp F)) :=
  match alookup prm.dihedral_types (ty.map some) with
  | some d => .ok d
  | none =>
    match alookup prm.dihedral_types (ty.map some).reverse with
    | some d => .ok d
    | none =>
      match wildcard_substituted (ty.map some) (prm.dihedral_types.map (·.1)) with
      | none => .error .missingDihedralType
      | some key =>
        match alookup prm.dihedral_types key with
        | none => .error .missingDihedralType
        | some d => .ok d

/-- State of the dihedral loop of `init`: the four 1-4 scaling tables,
the parameter rows built so far (one per dihedral, in order) and the
canonicalised quadruples already added. -/
structure DihSt (F : Type) (n : ℕ) where
  s14a : Fin n → List ℤ
  s14v : Fin n → List F
  e14a : Fin n → List ℤ
  e14v : Fin n → List F
  rows : List (List F)
  already : List (List (Fin n))

/-- One iteration of the dihedral loop of `init`: a quadruple whose
sorted index list was already seen is skipped (its parameter row stays
empty); otherwise the type list is resolved, the 1-4 endpoints receive
the first component's `scnb` / `scee`, and the flattened
`(phi_k, radians(phase), per)` components become the parameter row. -/
def dihStep {n : ℕ} (ops : NumOps F) (uq : List ℕ) (tyint : Fin n → ℕ)
    (prm : PrmSet F) (st : DihSt F n) (d : Fin 4 → Fin n) :
    Except InitError (DihSt F n) :=
  let srep := List.insertionSort (· ≤ ·) (List.ofFn d)
  if srep ∈ st.already then
    .ok { st with rows := st.rows ++ [[]] }
  else
    match dihLookup prm ((List.ofFn d).map (tyOfAtom uq tyint)) with
    | .error e => .error e
    | .ok [] => .error .emptyDihedralParam
    | .ok (d0 :: rest) =>
      let i := if d 0 ≤ d 3 then d 0 else d 3
      let j := if d 0 ≤ d 3 then d 3 else d 0
      .ok { s14a := updAppend st.s14a i (j.val : ℤ)
            s14v := updAppend st.s14v i d0.scnb
            e14a := updAppend st.e14a i (j.val : ℤ)
            e14v := updAppend st.e14v i d0.scee
            rows := st.rows ++
              [((d0 :: rest).map (fun dip => [dip.phi_k, radiansF ops dip.phase, dip.per])).flatten]
            already := st.already ++ [srep] }

/-- The dihedral loop of `init`. -/
def dihGo {n : ℕ} (ops : NumOps F) (uq : List ℕ) (tyint : Fin n → ℕ)
    (prm : PrmSet F) : DihSt F n → List (Fin 4 → Fin n) → Except InitError (DihSt F n)
  | st, [] => .ok st
  | st, d :: rest =>
    match dihStep ops uq tyint prm st d with
    | .error e => .error e
    | .ok st2 => dihGo ops uq tyint prm st2 rest

/-- A resolved improper parameter: harmonic `(psi_k, psi_eq)` from the
explicit improper table or periodic `(phi_k, phase, per)` from the
periodic improper table. -/
inductive ImprParam (F : Type)
  | harmonic : F → F → ImprParam F
  | periodic : F → F → F → ImprParam F
deriving DecidableEq

/-- The body of one permutation attempt inside `getImproperParameter`:
exact harmonic lookup, exact periodic lookup, then wildcard substitution
against the harmonic and the periodic table. -/
def tryPermImproper (prm : PrmSet F) (tyP : List (Option ℕ)) : Option (ImprParam F) :=
  match alookup prm.improper_types tyP with
  | some v => some (.harmonic v.1 v.2)
  | none =>
    match alookup prm.improper_periodic_types tyP with
    | some v => some (.periodic v.1 v.2.1 v.2.2)
    | none =>
      match wildcard_substituted tyP (prm.improper_types.map (·.1)) with
      | some key =>
        match alookup prm.improper_types key with
        | some v => some (.harmonic v.1 v.2)
        | none => none
      | none =>
        match wildcard_substituted tyP (prm.improper_periodic_types.map (·.1)) with
        | some key =>
          match alookup prm.improper_periodic_types key with
          | some v => some (.periodic v.1 v.2.1 v.2.2)
          | none => none
        | none => none

/-- The permutations of `(0, 1, 2, 3)` fixing position 2, in the order
`itertools.permutations` generates them. -/
def improperPerms : List (List ℕ) :=
  [[0, 1, 2, 3], [0, 3, 2, 1], [1, 0, 2, 3], [1, 3, 2, 0], [3, 0, 2, 1], [3, 1, 2, 0]]

/-- `type[p]`: the type list permuted by the position list `p`. -/
def permuteTy (ty : List ℕ) (p : List ℕ) : List ℕ :=
  p.map (fun k => ty.getD k 0)

/-- The permutation loop of `getImproperParameter`. -/
def improperPermScan (prm : PrmSet F) (ty : List ℕ) :
    List (List ℕ) → Option (ImprParam F)
  | [] => none
  | p :: rest =>
    match tryPermImproper prm ((permuteTy ty p).map some) with
    | some r => some r
    | none => improperPermScan prm ty rest

/-- `getImproperParameter`: scan the fixed-centre permutations; raise if
none resolves. -/
def getImproperParameter (prm : PrmSet F) (ty : List ℕ) :
    Except InitError (ImprParam F) :=
  match improperPermScan prm ty improperPerms with
  | some r => .ok r
  | none => .error .missingImproperType

/-- Adjacency in the bond graph of `improperGraph`. -/
def isNeighbor {n : ℕ} (bonds : List (Fin n × Fin n)) (i j : Fin n) : Bool :=
  bonds.any (fun b => (decide (b.1 = i) && decide (b.2 = j)) || (decide (b.1 = j) && decide (b.2 = i)))

/-- `detectImproperCenter`: the first atom of the quadruple whose
neighbourhood within the quadruple has exactly three (distinct)
members. -/
def detectImproperCenter {n : ℕ} (indexes : List (Fin n)) (bonds : List (Fin n × Fin n)) :
    Option (Fin n) :=
  indexes.find? (fun i => decide ((indexes.dedup.filter (fun j => isNeighbor bonds i j)).length = 3))

/-- `np.setdiff1d(impr, center)`: the sorted distinct members of the
quadruple other than the centre. -/
def setdiffSorted {n : ℕ} (indexes : List (Fin n)) (center : Fin n) : List (Fin n) :=
  ((List.insertionSort (· ≤ ·) indexes).dedup).filter (fun a => decide (a ≠ center))

/-- The improper resolution of `init` for one quadruple: try
`getImproperParameter` on the type list as given; on failure detect the
centre, re-sort the other three types alphabetically, splice the
centre's type into position 2 and retry; fail if still unresolved (a
missing centre is the caught TypeError of the source, re-raised as the
same error). -/
def resolveImproper {n : ℕ} (prm : PrmSet F) (uq : List ℕ) (tyint : Fin n → ℕ)
    (bonds : List (Fin n × Fin n)) (im : Fin 4 → Fin n) :
    Except InitError (ImprParam F) :=
  let ty := (List.ofFn im).map (tyOfAtom uq tyint)
  match getImproperParameter prm ty with
  | .ok r => .ok r
  | .error _ =>
    match detectImproperCenter (List.ofFn im) bonds with
    | none => .error .missingImproperType
    | some center =>
      let notcenter := setdiffSorted (List.ofFn im) center
      let nct := List.insertionSort (· ≤ ·) (notcenter.map (tyOfAtom uq tyint))
      let ty2 := nct.take 2 ++ [tyOfAtom uq tyint center] ++ nct.drop 2
      match getImproperParameter prm ty2 with
      | .ok r => .ok r
      | .error _ => .error .missingImproperType

/-- The `improper_params` row of a resolved improper:
periodic `(phi_k, radians(phase), per)`, harmonic
`(psi_k, radians(psi_eq), 0)`. -/
def improperRowOf (ops : NumOps F) : ImprParam F → F × F × F
  | .periodic k ph per => (k, radiansF ops ph, per)
  | .harmonic k psieq => (k, radiansF ops psieq, 0)

/-- The NBFix table of `init`: rows `(idx1, idx2, eps, sig, eps14,
sig14)` for the type pairs present in the system, `-1` everywhere
otherwise (`rmin` is converted to `sigma` by the factor
`2 ^ (-1/6)`). -/
def nbfixOf (ops : NumOps F) (uq : List ℕ) (prm : PrmSet F) :
    List (ℤ × ℤ × F × F × F × F) :=
  prm.nbfix_types.map (fun r =>
    if r.1.1 ∈ uq ∧ r.1.2 ∈ uq then
      ((uq.indexOf r.1.1 : ℤ), (uq.indexOf r.1.2 : ℤ),
       r.2.2.1, r.2.1 * ops.root2inv6, r.2.2.2.2, r.2.2.2.1 * ops.root2inv6)
    else (-1, -1, -1, -1, -1, -1))

/-- The width of the packed table `nestedListToArray` produces. -/
def maxWidth {α : Type} (rows : List (List α)) : ℕ :=
  (rows.map List.length).foldr max 0

/-- `nestedListToArray` (two-dimensional case): a `(1, 1)` default array
for an empty list of rows, a width-one default column when every row is
empty, otherwise each row padded with the default to the maximum
width. -/
def nestedListToArray {α : Type} (rows : List (List α)) (dflt : α) : List (List α) :=
  if rows.isEmpty then [[dflt]]
  else if rows.all (fun r => r.isEmpty) then rows.map (fun _ => [dflt])
  else rows.map (fun r => r ++ List.replicate (maxWidth rows - r.length) dflt)

/-- `np.unique` applied to each exclusion row. -/
def exclRows {n : ℕ} (excl : Fin n → List ℤ) : List (List ℤ) :=
  (List.ofFn excl).map (fun r => (List.insertionSort (· ≤ ·) r).dedup)

/-- `init(mol, prm)`: the topology indexer.  Each section mirrors the
corresponding block of the source; any failed parameter lookup aborts
with the corresponding error. -/
def init (ops : NumOps F) (mol : Mol F) (prm : PrmSet F) :
    Except InitError (InitOut F mol.natoms) :=
  let uq := uqtypesOf mol.atomtype
  let tyint := typeintOf mol.atomtype
  match uq.mapM (fun t => (alookup prm.atom_types t).elim
      (Except.error InitError.missingAtomType) Except.ok) with
  | .error e => .error e
  | .ok atp =>
    match mol.bonds.foldlM (bondStep uq tyint prm) ⟨fun _ => [], fun _ => [], fun _ => []⟩ with
    | .error e => .error e
    | .ok bst =>
      let excl2 := addAngleExcl bst.excl mol.angles
      match buildAngleParams ops uq tyint prm mol.angles with
      | .error e => .error e
      | .ok aps =>
        match dihGo ops uq tyint prm ⟨fun _ => [], fun _ => [], fun _ => [], fun _ => [], [], []⟩ mol.dihedrals with
        | .error e => .error e
        | .ok dst =>
          match mol.impropers.mapM (fun im => resolveImproper prm uq tyint mol.bonds im) with
          | .error e => .error e
          | .ok imps =>
            .ok { typeint := tyint
                  excl := nestedListToArray (exclRows excl2) (-1)
                  nbfix := nbfixOf ops uq prm
                  sigma := atp.map (·.sigma)
                  sigma14 := atp.map (·.sigma_14)
                  epsilon := atp.map (·.epsilon)
                  epsilon14 := atp.map (·.epsilon_14)
                  s14a := nestedListToArray (List.ofFn dst.s14a) (-1)
                  e14a := nestedListToArray (List.ofFn dst.e14a) (-1)
                  s14v := nestedListToArray ((List.ofFn dst.s14v).map (·.map some)) none
                  e14v := nestedListToArray ((List.ofFn dst.e14v).map (·.map some)) none
                  bonda := nestedListToArray (List.ofFn bst.bonda) (-1)
                  bondv := nestedListToArray ((List.ofFn bst.bondv).map (·.map some)) none
                  elecFactor := ops.elecFactorConst
                  charge := mol.charge
                  angles := mol.angles
                  angle_params := aps
                  dihedrals := mol.dihedrals
                  dihedral_params := nestedListToArray (dst.rows.map (·.map some)) none
                  impropers := mol.impropers
                  improper_params := imps.map (improperRowOf ops) }

/-- `calculateSets`: with between-sets supplied, the copied molecule has
its bonds, angles, dihedrals and impropers cleared.  The atom-selection
language is the upstream selection component; the two sets arrive here
as index lists. -/
def calculateSets (mol : Mol F) (betweensets : Option (List ℤ × List ℤ)) :
    Mol F × List ℤ × List ℤ :=
  match betweensets with
  | none => (mol, [], [])
  | some sets =>
    ({ mol with bonds := [], angles := [], dihedrals := [], impropers := [] },
     sets.1, sets.2)

/-- The state a constructed evaluator stores: the `init` output with the
configuration appended. -/
structure Constructed (F : Type) (n : ℕ) where
  args : InitOut F n
  cfg : FFConfig F

/-- `FFEvaluate.__init__`: copy the molecule, apply `calculateSets`, run
`init` and append the configuration.  No validation of `cutoff`, `rfa`
or `solventDielectric` is performed. -/
def FFEvaluateInit (ops : NumOps F) (mol : Mol F) (prm : PrmSet F)
    (betweensets : Option (List ℤ × List ℤ)) (cutoff : F) (rfa : Bool)
    (solventDielectric : F) : Except InitError (Constructed F mol.natoms) :=
  match betweensets with
  | none =>
    (init ops mol prm).map (fun a => ⟨a, [], [], cutoff, rfa, solventDielectric⟩)
  | some sets =>
    (init ops { mol with bonds := [], angles := [], dihedrals := [], impropers := [] } prm).map
      (fun a => ⟨a, sets.1, sets.2, cutoff, rfa, solventDielectric⟩)

/-- A coordinates argument to `calculate`: either a single-frame
`(natoms, 3)` array or a `(natoms, 3, nframes)` array. -/
inductive CoordsArg (F : Type) (n : ℕ)
  | twoD : (Fin n → Fin 3 → F) → CoordsArg F n
  | threeD : List (Fin n → Fin 3 → F) → CoordsArg F n

/-- The frame list a coordinates argument denotes after the
`coords.ndim == 2` branch of `calculate` adds the frame axis. -/
def coordsFramesOf {n : ℕ} : CoordsArg F n → List (Fin n → Fin 3 → F)
  | .twoD c => [c]
  | .threeD cs => cs

/-- `FFEvaluate.calculate`: a two-dimensional coordinates array is copied
and given a trailing frame axis; a missing box becomes zeros with one
column per frame; a box whose frame count disagrees raises; then
`_ffevaluate` runs. -/
def calculate (ops : NumOps F) {n : ℕ} (c : Constructed F n)
    (coords : CoordsArg F n) (box : Option (List (Fin 3 → F))) :
    Except Unit (List (Outputs F n)) :=
  let frames := coordsFramesOf coords
  let boxFrames := match box with
    | none => List.replicate frames.length (fun _ => 0)
    | some b => b
  if boxFrames.length = frames.length then
    .ok (ffevaluate ops c.args c.cfg frames boxFrames)
  else .error ()

/-! ### Spec-side restatement of the improper resolution (for the
refinement theorem) -/

/-- One permutation attempt as the spec words it: exact lookup in the
harmonic improper table, or else exact lookup in the periodic improper
table, or else wildcard substitution against each, in that order. -/
def tryPermImproperSpec (prm : PrmSet F) (tyP : List (Option ℕ)) : Option (ImprParam F) :=
  ((alookup prm.improper_types tyP).map (fun v => ImprParam.harmonic v.1 v.2)) <|>
  ((alookup prm.improper_periodic_types tyP).map (fun v => ImprParam.periodic v.1 v.2.1 v.2.2)) <|>
  (((wildcard_substituted tyP (prm.improper_types.map (·.1))).bind
      (fun key => alookup prm.improper_types key)).map (fun v => ImprParam.harmonic v.1 v.2)) <|>
  (((wildcard_substituted tyP (prm.improper_periodic_types.map (·.1))).bind
      (fun key => alookup prm.improper_periodic_types key)).map (fun v => ImprParam.periodic v.1 v.2.1 v.2.2))

/-- The permutation scan as the spec words it: the first permutation of
positions `(0, 1, 2, 3)` fixing position 2 whose attempt succeeds. -/
def getImproperParameterSpec (prm : PrmSet F) (ty : List ℕ) : Option (ImprParam F) :=
  improperPerms.findSome? (fun p => tryPermImproperSpec prm ((permuteTy ty p).map some))

/-- The full improper resolution as the spec words it: run the
permutation scan; if it fails, detect the centre (the atom whose
neighbourhood within the quadruple has cardinality 3 in the bond graph),
re-sort the other three types alphabetically, splice the centre's type
into position 2 and retry the scan; fail if still unresolved. -/
def resolveImproperSpec {n : ℕ} (prm : PrmSet F) (uq : List ℕ) (tyint : Fin n → ℕ)
    (bonds : List (Fin n × Fin n)) (im : Fin 4 → Fin n) :
    Except InitError (ImprParam F) :=
  match getImproperParameterSpec prm ((List.ofFn im).map (tyOfAtom uq tyint)) with
  | some r => .ok r
  | none =>
    match detectImproperCenter (List.ofFn im) bonds with
    | none => .error .missingImproperType
    | some center =>
      let others := List.insertionSort (· ≤ ·) ((setdiffSorted (List.ofFn im) center).map (tyOfAtom uq tyint))
      match getImproperParameterSpec prm
          (others.take 2 ++ tyOfAtom uq tyint center :: others.drop 2) with
      | some r => .ok r
      | none => .error .missingImproperType

/-! ### Helper definitions for the theorems -/

/-- The total potential a pair-loop iteration adds to the energy row. -/
def optPot : Option (PairTerms F) → F
  | none => 0
  | some t => t.potBo + t.potLj + t.potEl

/-- `Except.isOk` without the Batteries dependency surface. -/
def isOkE {ε α : Type} : Except ε α → Bool
  | .ok _ => true
  | .error _ => false

/-! ### Concrete instances used by the witnesses -/

/-- A computable instance of the numeric primitives over the rationals,
used only to exercise the definitions on concrete inputs. -/
def qOps : NumOps ℚ :=
  ⟨fun _ => 0, fun _ => 0, fun _ => 0, fun _ => 0, 3, 1, 1,
   fun d _ => d, fun d _ => d, fun _ _ => (0, fun _ => 0, fun _ => 0, fun _ => 0)⟩

/-- A two-atom molecule with no topology. -/
def molW2 : Mol ℚ := ⟨2, fun _ => 0, fun _ => 0, [], [], [], []⟩

/-- A parameter set holding only the atom type of `molW2`. -/
def prmW : PrmSet ℚ := ⟨[(0, ⟨1, 1, 1, 1⟩)], [], [], [], [], [], []⟩

/-- Evaluator arguments with empty packed tables, over two atoms. -/
def argsW : InitOut ℚ 2 :=
  ⟨fun _ => 0, [], [], [], [], [], [], [], [], [], [], [], [], 1, fun _ => 0,
   [], [], [], [], [], []⟩

/-- A configuration with no between-sets, no cutoff, no reaction
field. -/
def cfgW : FFConfig ℚ := ⟨[], [], 0, false, 1⟩

/-- Arguments over two atoms where the pair `(0, 1)` is excluded but not
bonded. -/
def argsExcl : InitOut ℚ 2 :=
  ⟨fun _ => 0, [[1, -1], [-1]], [], [], [], [], [], [], [], [], [], [[-1], [-1]], [[none], [none]], 1, fun _ => 0,
   [], [], [], [], [], []⟩

/-- A four-atom molecule with a single dihedral `(0, 1, 2, 3)`. -/
def molDih : Mol ℚ :=
  ⟨4, fun _ => 0, fun _ => 0, [], [], [fun t => t], []⟩

/-- A parameter set resolving the all-zero dihedral type of `molDih`. -/
def prmDih : PrmSet ℚ :=
  ⟨[(0, ⟨1, 1, 1, 1⟩)], [], [], [([some 0, some 0, some 0, some 0], [⟨1, 0, 1, 2, 2⟩])], [], [], []⟩

/-! ### Helper lemmas -/

theorem isOkE_map {ε α β : Type} (f : α → β) (e : Except ε α) :
    isOkE (e.map f) = isOkE e := by
  cases e <;> rfl

theorem alookup_isSome_of_mem {V : Type} {tbl : List (List (Option ℕ) × V)}
    {key : List (Option ℕ)} (h : key ∈ tbl.map (·.1)) :
    ∃ v, alookup tbl key = some v := by
  obtain ⟨p, hp, hpe⟩ := List.mem_map.mp h
  have hs : (tbl.find? (fun q => decide (q.1 = key))).isSome := by
    rw [List.find?_isSome]
    exact ⟨p, hp, by simp [hpe]⟩
  obtain ⟨q, hq⟩ := Option.isSome_iff_exists.mp hs
  exact ⟨q.2, by simp [alookup, hq]⟩

theorem wildcard_substituted_mem {ty key : List (Option ℕ)}
    {keys : List (List (Option ℕ))}
    (h : wildcard_substituted ty keys = some key) : key ∈ keys := by
  unfold wildcard_substituted at h
  exact List.mem_of_mem_filter (List.mem_of_find?_eq_some h)

/-! ### C6: improper parameter resolution order -/

theorem tryPermImproper_eq_spec (prm : PrmSet F) (tyP : List (Option ℕ)) :
    tryPermImproper prm tyP = tryPermImproperSpec prm tyP := by
  unfold tryPermImproper tryPermImproperSpec
  cases alookup prm.improper_types tyP with
  | some v => rfl
  | none =>
    simp only []
    cases alookup prm.improper_periodic_types tyP with
    | some v => rfl
    | none =>
      simp only []
      cases hw : wildcard_substituted tyP (prm.improper_types.map (·.1)) with
      | some key =>
        obtain ⟨v, hv⟩ := alookup_isSome_of_mem
          (List.mem_map.mpr (by
            have := wildcard_substituted_mem hw
            obtain ⟨p, hp, hpe⟩ := List.mem_map.mp this
            exact ⟨p, hp, hpe⟩))
        simp [hw, hv, Option.orElse]
      | none =>
        cases hw2 : wildcard_substituted tyP (prm.improper_periodic_types.map (·.1)) with
        | some key2 =>
          obtain ⟨v, hv⟩ := alookup_isSome_of_mem
            (List.mem_map.mpr (by
              have := wildcard_substituted_mem hw2
              obtain ⟨p, hp, hpe⟩ := List.mem_map.mp this
              exact ⟨p, hp, hpe⟩))
          simp [hw, hw2, hv, Option.orElse]
        | none => simp [hw, hw2, Option.orElse]

theorem improperPermScan_eq_findSome (prm : PrmSet F) (ty : List ℕ)
    (l : List (List ℕ)) :
    improperPermScan prm ty l
      = l.findSome? (fun p => tryPermImproperSpec prm ((permuteTy ty p).map some)) := by
  induction l with
  | nil => rfl
  | cons p rest ih =>
    rw [List.findSome?_cons]
    unfold improperPermScan
    rw [tryPermImproper_eq_spec]
    cases tryPermImproperSpec prm ((permuteTy ty p).map some) <;> simp [ih]

/-- C6.  For every improper quadruple, the parameter resolution of the
indexer equals its specification: scan the permutations of positions
`(0, 1, 2, 3)` fixing position 2, attempting exact lookup in the
harmonic improper table, exact lookup in the periodic improper table,
then wildcard substitution against each, in that order; if every
permutation fails, detect the centre atom (the one whose neighbourhood
within the quadruple has cardinality 3 in the bond graph), re-sort the
other three types alphabetically, splice the centre's type into position
2, retry the permutation scan, and fail with an error if still
unresolved. -/
theorem improper_resolution_follows_spec {n : ℕ} (prm : PrmSet F) (uq : List ℕ)
    (tyint : Fin n → ℕ) (bonds : List (Fin n × Fin n)) (im : Fin 4 → Fin n) :
    resolveImproper prm uq tyint bonds im = resolveImproperSpec prm uq tyint bonds im := by
  unfold resolveImproper resolveImproperSpec getImproperParameter getImproperParameterSpec
  simp only [improperPermScan_eq_findSome, List.append_assoc, List.singleton_append]
  cases hsc : improperPerms.findSome?
      (fun p => tryPermImproperSpec prm ((permuteTy ((List.ofFn im).map (tyOfAtom uq tyint)) p).map some)) with
  | some r => simp [hsc]
  | none =>
    simp only [hsc]
    cases hdc : detectImproperCenter (List.ofFn im) bonds with
    | none => rfl
    | some center =>
      simp only [hdc]
      cases improperPerms.findSome?
          (fun p => tryPermImproperSpec prm ((permuteTy
            ((List.insertionSort (· ≤ ·) ((setdiffSorted (List.ofFn im) center).map (tyOfAtom uq tyint))).take 2
              ++ tyOfAtom uq tyint center
                :: (List.insertionSort (· ≤ ·) ((setdiffSorted (List.ofFn im) center).map (tyOfAtom uq tyint))).drop 2) p).map some)) with
      | some r => rfl
      | none => rfl

/-! ### C4: reaction-field potential vanishes at the cutoff -/

/-- C4.  For every cutoff `R > 0` and every solvent dielectric `s` with
`2 s + 1 ≠ 0` (the reaction-field denominator, nonzero for every
physical dielectric), the potential `_evaluate_elec` computes with `rfa`
on is exactly zero at `dist = R`:
`C * (1/R + krf * R^2 - crf) = 0` in exact arithmetic, for every charge
product and every 1-4 scale. -/
theorem rfa_potential_zero_at_cutoff {n : ℕ} (i j : Fin n) (charge : Fin n → F)
    (e14a : List (List ℤ)) (e14v : List (List (Option F))) (EF sd cutoff : F)
    (hc : 0 < cutoff) (hd : 2 * sd + 1 ≠ 0) :
    (evaluate_elec i j charge e14a e14v EF cutoff true sd cutoff).1 = 0 := by
  have hc0 : cutoff ≠ 0 := ne_of_gt hc
  have key : (1 / cutoff) + ((1 / cutoff ^ 3) * (sd - 1) / (2 * sd + 1)) * cutoff ^ 2
      - (1 / cutoff) * (3 * sd) / (2 * sd + 1) = 0 := by
    field_simp
    ring
  simp only [evaluate_elec, if_true]
  rw [key, mul_zero]

theorem rfa_potential_zero_at_cutoff_witness :
    0 < (1 : ℚ) ∧ 2 * (1 : ℚ) + 1 ≠ 0 ∧
      (evaluate_elec (0 : Fin 2) 1 (fun _ => (1 : ℚ)) [] [] 1 1 true 1 1).1 = 0 :=
  ⟨by norm_num, by norm_num,
   rfa_potential_zero_at_cutoff (0 : Fin 2) 1 (fun _ => (1 : ℚ)) [] [] 1 1 1
     (by norm_num) (by norm_num)⟩

/-! ### C8: no configuration validation at construction -/

/-- C8 (counterexample to the claim).  Constructing the evaluator with
`rfa = true` and `cutoff = 0` on a concrete two-atom molecule raises no
error: construction succeeds. -/
theorem construction_rfa_zero_cutoff_ok :
    isOkE (FFEvaluateInit qOps molW2 prmW none 0 true 1) = true := by
  rfl

/-- C8 (amended).  `FFEvaluate.__init__` performs no validation of
`cutoff` or `rfa`: construction succeeds or fails independently of their
values (only parameter resolution can fail), so `rfa = true` with
`cutoff = 0` raises nothing at construction time. -/
theorem construction_no_config_validation (ops : NumOps F) (mol : Mol F)
    (prm : PrmSet F) (bs : Option (List ℤ × List ℤ)) (c1 c2 s1 s2 : F)
    (r1 r2 : Bool) :
    isOkE (FFEvaluateInit ops mol prm bs c1 r1 s1)
      = isOkE (FFEvaluateInit ops mol prm bs c2 r2 s2) := by
  cases bs <;> simp [FFEvaluateInit, isOkE_map]

/-! ### C9: the torsion kernel's single-shift wrap -/

/-- C9 (counterexample to the claim).  At `phi = 0`, `phi0 = pi`
(a 180-degree phase), the deviation is `-pi`; the kernel's wrap leaves
it unchanged, and `-pi` does not lie in the half-open interval
`(-pi, pi]` the claim names. -/
theorem wrapDiff_boundary_counterexample :
    wrapDiff Real.pi (0 - Real.pi) = -Real.pi ∧
      ¬ (-Real.pi < wrapDiff Real.pi (0 - Real.pi)) := by
  have hpi := Real.pi_pos
  have h1 : ¬ ((0 : ℝ) - Real.pi < -Real.pi) := by simp
  have h2 : ¬ ((0 : ℝ) - Real.pi > Real.pi) := by
    simp only [zero_sub, gt_iff_lt, not_lt]
    linarith
  have hval : wrapDiff Real.pi (0 - Real.pi) = -Real.pi := by
    unfold wrapDiff
    rw [if_neg h1, if_neg h2]
    ring
  exact ⟨hval, by rw [hval]; exact lt_irrefl _⟩

/-- C9 (amended).  For every torsion component with periodicity
`per ≤ 0` the kernel accumulates the potential `k * d ^ 2` and the
derivative `2 * k * d` where `d = wrapDiff pi (phi - phi0)` is the
single two-pi shift of the deviation; that shift lands in the closed
interval `[-pi, pi]` whenever the deviation lies in `[-3 pi, 3 pi]`
(both endpoints attainable, so the interval is closed, not the half-open
`(-pi, pi]`). -/
theorem harmonic_improper_wrap (ops : NumOps F) (phi : F) (p : F × F × F)
    (hper : p.2.2 ≤ 0) (hpi : 0 < ops.pi) :
    torsionTerm ops phi p
        = (p.1 * wrapDiff ops.pi (phi - p.2.1) ^ 2,
           2 * p.1 * wrapDiff ops.pi (phi - p.2.1)) ∧
      (∀ d : F, -3 * ops.pi ≤ d → d ≤ 3 * ops.pi →
        -ops.pi ≤ wrapDiff ops.pi d ∧ wrapDiff ops.pi d ≤ ops.pi) := by
  constructor
  · unfold torsionTerm
    rw [if_neg (by simpa using not_lt.mpr hper)]
  · intro d hlo hhi
    unfold wrapDiff
    by_cases h1 : d < -ops.pi
    · rw [if_pos h1]
      constructor <;> linarith
    · rw [if_neg h1]
      by_cases h2 : d > ops.pi
      · rw [if_pos h2]
        constructor <;> linarith
      · rw [if_neg h2]
        constructor <;> linarith

theorem harmonic_improper_wrap_witness :
    ((2 : ℚ), (0 : ℚ), (0 : ℚ)).2.2 ≤ 0 ∧ 0 < qOps.pi ∧
      torsionTerm qOps 2 ((2 : ℚ), (0 : ℚ), (0 : ℚ))
        = (2 * wrapDiff qOps.pi (2 - 0) ^ 2, 2 * 2 * wrapDiff qOps.pi (2 - 0)) :=
  ⟨by norm_num, by norm_num [qOps],
   (harmonic_improper_wrap qOps 2 ((2 : ℚ), (0 : ℚ), (0 : ℚ))
     (by norm_num) (by norm_num [qOps])).1⟩

/-! ### C10: two-dimensional coordinates are one frame -/

/-- C10.  `calculate` treats a `(natoms, 3)` coordinates array as the
same array with a trailing frame axis of length one: the result equals
the result for the reshaped `(natoms, 3, 1)` input, and whenever it
succeeds it holds exactly one frame (the model is pure, and the source
copies the input before appending the axis, so the caller's array is
untouched). -/
theorem calculate_twoD_single_frame (ops : NumOps F) {n : ℕ}
    (c : Constructed F n) (c0 : Fin n → Fin 3 → F)
    (box : Option (List (Fin 3 → F))) :
    calculate ops c (CoordsArg.twoD c0) box
        = calculate ops c (CoordsArg.threeD [c0]) box ∧
      (calculate ops c (CoordsArg.twoD c0) box).map List.length
        = (calculate ops c (CoordsArg.twoD c0) box).map (fun _ => 1) := by
  refine ⟨rfl, ?_⟩
  cases box with
  | none => simp [calculate, coordsFramesOf, ffevaluate, Except.map]
  | some b =>
    by_cases h : b.length = 1
    · simp [calculate, coordsFramesOf, ffevaluate, Except.map, h]
    · simp [calculate, coordsFramesOf, Except.map, h]

/-! ### C3: exclusion rules in the pair loop -/

/-- C3.  For an ordered pair in the exclusion set: if it is not bonded
the pair-loop iteration is skipped entirely and contributes nothing to
any energy component, force or attribution; if it is bonded, only the
harmonic bond term is evaluated (the LJ and electrostatic terms are
forced to zero), so the LJ and electrostatic energy rows and attribution
columns receive nothing from it. -/
theorem excluded_pair_rules (ops : NumOps F) {n : ℕ} (a : InitOut F n)
    (cfg : FFConfig F) (coords : Fin n → Fin 3 → F) (box : Fin 3 → F) (i j : Fin n)
    (hexcl : ispaired a.excl i.val (j.val : ℤ) = true) :
    (ispaired a.bonda i.val (j.val : ℤ) = false →
        pairEval ops a cfg coords box i j = none ∧
        (∀ c, pairEnergies (pairEval ops a cfg coords box i j) c = 0) ∧
        (∀ b k, pairForceOn i j (pairEval ops a cfg coords box i j) b k = 0) ∧
        (∀ b c, pairAtmnrgOn i j (pairEval ops a cfg coords box i j) b c = 0)) ∧
    (ispaired a.bonda i.val (j.val : ℤ) = true →
        (∀ t, pairEval ops a cfg coords box i j = some t →
          t.potLj = 0 ∧ t.potEl = 0 ∧
          t.potBo = (evaluate_harmonic_bonds i.val (j.val : ℤ) a.bonda a.bondv
            (pairDist ops coords box i j)).1 ∧
          t.coeff = (evaluate_harmonic_bonds i.val (j.val : ℤ) a.bonda a.bondv
            (pairDist ops coords box i j)).2) ∧
        pairEnergies (pairEval ops a cfg coords box i j) 1 = 0 ∧
        pairEnergies (pairEval ops a cfg coords box i j) 2 = 0 ∧
        (∀ b, pairAtmnrgOn i j (pairEval ops a cfg coords box i j) b 1 = 0 ∧
              pairAtmnrgOn i j (pairEval ops a cfg coords box i j) b 2 = 0)) := by
  constructor
  · intro hnb
    have hnone : pairEval ops a cfg coords box i j = none := by
      unfold pairEval
      simp [hexcl, hnb]
    refine ⟨hnone, ?_, ?_, ?_⟩
    · intro c; rw [hnone]; rfl
    · intro b k; rw [hnone]; rfl
    · intro b c; rw [hnone]; rfl
  · intro hb
    have hrepr : pairEval ops a cfg coords box i j = none ∨
        pairEval ops a cfg coords box i j = some
          ⟨(evaluate_harmonic_bonds i.val (j.val : ℤ) a.bonda a.bondv
              (pairDist ops coords box i j)).1, 0, 0,
           (evaluate_harmonic_bonds i.val (j.val : ℤ) a.bonda a.bondv
              (pairDist ops coords box i j)).2 + 0 + 0,
           fun k => pairDvec ops coords box i j k / pairDist ops coords box i j⟩ := by
      simp only [pairEval, hexcl, hb, Bool.not_true, Bool.and_false]
      by_cases h1 : (cfg.usersets && !insets ((i.val : ℤ)) ((j.val : ℤ)) cfg.set1 cfg.set2) = true
      · rw [if_pos h1]; exact Or.inl rfl
      · rw [if_neg h1]
        by_cases h2 : cfg.cutoff ≠ 0 ∧ pairDist ops coords box i j > cfg.cutoff
        · rw [if_neg (by simp), if_pos h2]; exact Or.inl rfl
        · rw [if_neg (by simp), if_neg h2]; exact Or.inr rfl
    have hfields : ∀ t, pairEval ops a cfg coords box i j = some t →
        t.potLj = 0 ∧ t.potEl = 0 ∧
        t.potBo = (evaluate_harmonic_bonds i.val (j.val : ℤ) a.bonda a.bondv
          (pairDist ops coords box i j)).1 ∧
        t.coeff = (evaluate_harmonic_bonds i.val (j.val : ℤ) a.bonda a.bondv
          (pairDist ops coords box i j)).2 := by
      intro t ht
      rcases hrepr with h | h
      · rw [h] at ht; cases ht
      · rw [h] at ht
        cases ht
        exact ⟨rfl, rfl, rfl, by simp⟩
    refine ⟨hfields, ?_, ?_, ?_⟩
    · rcases hrepr with h | h <;> rw [h]
      · rfl
      · simp [pairEnergies]
    · rcases hrepr with h | h <;> rw [h]
      · rfl
      · simp [pairEnergies]
    · intro b
      rcases hrepr with h | h <;> rw [h]
      · exact ⟨rfl, rfl⟩
      · constructor <;> simp [pairAtmnrgOn]

theorem excluded_pair_rules_witness :
    ispaired argsExcl.excl (0 : Fin 2).val (((1 : Fin 2).val : ℤ)) = true ∧
      ispaired argsExcl.bonda (0 : Fin 2).val (((1 : Fin 2).val : ℤ)) = false ∧
      pairEval qOps argsExcl cfgW (fun _ _ => 0) (fun _ => 0) 0 1 = none :=
  ⟨by decide, by decide,
   ((excluded_pair_rules qOps argsExcl cfgW (fun _ _ => 0) (fun _ => 0) 0 1
      (by decide)).1 (by decide)).1⟩

/-! ### Sum lemmas for the accumulation structure of `_ffevaluate` -/

theorem sum_pairEnergies_eq (t : Option (PairTerms F)) :
    ∑ c : Fin 6, pairEnergies t c = optPot t := by
  cases t with
  | none => simp [pairEnergies, optPot]
  | some v =>
    rw [Fin.sum_univ_six]
    simp [pairEnergies, optPot]

theorem sum_pairForceOn_eq {n : ℕ} (i j : Fin n) (t : Option (PairTerms F)) (k : Fin 3) :
    ∑ b : Fin n, pairForceOn i j t b k = 0 := by
  cases t with
  | none => simp [pairForceOn]
  | some v =>
    unfold pairForceOn
    rw [Finset.sum_add_distrib]
    simp [Finset.sum_ite_eq']

theorem sum_sum_pairAtmnrgOn_eq {n : ℕ} (i j : Fin n) (t : Option (PairTerms F)) :
    ∑ b : Fin n, ∑ c : Fin 6, pairAtmnrgOn i j t b c = optPot t := by
  cases t with
  | none => simp [pairAtmnrgOn, optPot]
  | some v =>
    rw [Finset.sum_comm]
    have step : ∀ c : Fin 6, (∑ b : Fin n, pairAtmnrgOn i j (some v) b c)
        = (if c = 0 then v.potBo else if c = 1 then v.potLj else if c = 2 then v.potEl else 0) := by
      intro c
      unfold pairAtmnrgOn
      rw [Finset.sum_add_distrib]
      simp only [Finset.sum_ite_eq', Finset.mem_univ, if_true]
      ring
    rw [Finset.sum_congr rfl (fun c _ => step c), Fin.sum_univ_six]
    simp [optPot]

theorem sum_angleForce (f0 f2 : Fin 3 → F) (k : Fin 3) :
    ∑ t : Fin 3, angleForce f0 f2 t k = 0 := by
  rw [Fin.sum_univ_three]
  have h0 : angleForce f0 f2 0 k = f0 k := rfl
  have h1 : angleForce f0 f2 1 k = -(f0 k + f2 k) := rfl
  have h2 : angleForce f0 f2 2 k = f2 k := rfl
  rw [h0, h1, h2]
  ring

theorem evaluate_angles_force_sum (ops : NumOps F) (pos : Fin 3 → Fin 3 → F)
    (prms : F × F) (box : Fin 3 → F) (k : Fin 3) :
    ∑ t : Fin 3, (evaluate_angles ops pos prms box).2 t k = 0 := by
  simp only [evaluate_angles]
  exact sum_angleForce _ _ k

theorem sum_torsionForce (f1 f4 sv : Fin 3 → F) (k : Fin 3) :
    ∑ d : Fin 4, torsionForce f1 f4 sv d k = 0 := by
  rw [Fin.sum_univ_four]
  have h0 : torsionForce f1 f4 sv 0 k = -f1 k := rfl
  have h1 : torsionForce f1 f4 sv 1 k = f1 k + sv k := rfl
  have h2 : torsionForce f1 f4 sv 2 k = f4 k - sv k := rfl
  have h3 : torsionForce f1 f4 sv 3 k = -f4 k := rfl
  rw [h0, h1, h2, h3]
  ring

theorem evaluate_torsion_force_sum (ops : NumOps F) (pos : Fin 4 → Fin 3 → F)
    (row : List (Option F)) (box : Fin 3 → F) (k : Fin 3) :
    ∑ d : Fin 4, (evaluate_torsion ops pos row box).2 d k = 0 := by
  simp only [evaluate_torsion]
  exact sum_torsionForce _ _ _ k

theorem finsetSum_listSum {α γ M : Type} [AddCommMonoid M] [Fintype α]
    (l : List γ) (g : γ → α → M) :
    ∑ a : α, (l.map (fun r => g r a)).sum = (l.map (fun r => ∑ a : α, g r a)).sum := by
  induction l with
  | nil => simp
  | cons x xs ih => simp [Finset.sum_add_distrib, ih]

theorem sum_angleRecForceOn (ops : NumOps F) {n : ℕ} (coords : Fin n → Fin 3 → F)
    (box : Fin 3 → F) (r : (Fin 3 → Fin n) × (F × F)) (k : Fin 3) :
    ∑ b : Fin n, angleRecForceOn ops coords box r b k = 0 := by
  unfold angleRecForceOn
  rw [Finset.sum_comm]
  have step : ∀ t : Fin 3,
      (∑ b : Fin n, if r.1 t = b then (evaluate_angles ops (fun u => coords (r.1 u)) r.2 box).2 t k else 0)
        = (evaluate_angles ops (fun u => coords (r.1 u)) r.2 box).2 t k := by
    intro t
    simp [Finset.sum_ite_eq]
  rw [Finset.sum_congr rfl (fun t _ => step t)]
  exact evaluate_angles_force_sum ops _ r.2 box k

theorem sum_angleRecAtmOn (ops : NumOps F) {n : ℕ} (coords : Fin n → Fin 3 → F)
    (box : Fin 3 → F) (r : (Fin 3 → Fin n) × (F × F)) :
    ∑ b : Fin n, angleRecAtmOn ops coords box r b = angleRecEnergy ops coords box r := by
  unfold angleRecAtmOn angleRecEnergy
  rw [Finset.sum_comm]
  have step : ∀ t : Fin 3,
      (∑ b : Fin n, if r.1 t = b then (evaluate_angles ops (fun u => coords (r.1 u)) r.2 box).1 / 3 else 0)
        = (evaluate_angles ops (fun u => coords (r.1 u)) r.2 box).1 / 3 := by
    intro t
    simp [Finset.sum_ite_eq]
  rw [Finset.sum_congr rfl (fun t _ => step t), Fin.sum_univ_three]
  ring

theorem sum_torsionRecForceOn (ops : NumOps F) {n : ℕ} (coords : Fin n → Fin 3 → F)
    (box : Fin 3 → F) (r : (Fin 4 → Fin n) × List (Option F)) (k : Fin 3) :
    ∑ b : Fin n, torsionRecForceOn ops coords box r b k = 0 := by
  unfold torsionRecForceOn
  rw [Finset.sum_comm]
  have step : ∀ t : Fin 4,
      (∑ b : Fin n, if r.1 t = b then (evaluate_torsion ops (fun u => coords (r.1 u)) r.2 box).2 t k else 0)
        = (evaluate_torsion ops (fun u => coords (r.1 u)) r.2 box).2 t k := by
    intro t
    simp [Finset.sum_ite_eq]
  rw [Finset.sum_congr rfl (fun t _ => step t)]
  exact evaluate_torsion_force_sum ops _ r.2 box k

theorem sum_torsionRecAtmOn (ops : NumOps F) {n : ℕ} (coords : Fin n → Fin 3 → F)
    (box : Fin 3 → F) (r : (Fin 4 → Fin n) × List (Option F)) :
    ∑ b : Fin n, torsionRecAtmOn ops coords box r b = torsionRecEnergy ops coords box r := by
  unfold torsionRecAtmOn torsionRecEnergy
  rw [Finset.sum_comm]
  have step : ∀ t : Fin 4,
      (∑ b : Fin n, if r.1 t = b then (evaluate_torsion ops (fun u => coords (r.1 u)) r.2 box).1 / 4 else 0)
        = (evaluate_torsion ops (fun u => coords (r.1 u)) r.2 box).1 / 4 := by
    intro t
    simp [Finset.sum_ite_eq]
  rw [Finset.sum_congr rfl (fun t _ => step t), Fin.sum_univ_four]
  ring

/-! ### C1: energy decomposition consistency -/

/-- C1.  For every input and every frame, the sum of the six energy
components equals the sum over all atoms and all six components of the
per-atom attribution: each pair potential is split into two halves, each
angle potential into three thirds, each dihedral and improper potential
into four quarters, so both sides are the same sum in exact
arithmetic. -/
theorem energies_atmnrg_decomposition (ops : NumOps F) {n : ℕ} (a : InitOut F n)
    (cfg : FFConfig F) (cf : List (Fin n → Fin 3 → F)) (bf : List (Fin 3 → F))
    (out : Outputs F n) (hout : out ∈ ffevaluate ops a cfg cf bf) :
    ∑ c : Fin 6, out.energies c = ∑ b : Fin n, ∑ c : Fin 6, out.atmnrg b c := by
  obtain ⟨cb, _, rfl⟩ := List.mem_map.mp hout
  show ∑ c : Fin 6, totalEnergies ops a cfg cb.1 cb.2 c
      = ∑ b : Fin n, ∑ c : Fin 6, totalAtmnrg ops a cfg cb.1 cb.2 b c
  have hL : ∑ c : Fin 6, totalEnergies ops a cfg cb.1 cb.2 c
      = (∑ p ∈ pairsFinset n, optPot (pairEval ops a cfg cb.1 cb.2 p.1 p.2))
        + (if cfg.usersets then 0 else
            ((a.angles.zip a.angle_params).map (fun r => angleRecEnergy ops cb.1 cb.2 r)).sum
          + ((a.dihedrals.zip a.dihedral_params).map (fun r => torsionRecEnergy ops cb.1 cb.2 r)).sum
          + ((a.impropers.zip (a.improper_params.map improperParamRow)).map (fun r => torsionRecEnergy ops cb.1 cb.2 r)).sum) := by
    unfold totalEnergies
    rw [Finset.sum_add_distrib]
    congr 1
    · rw [Finset.sum_comm]
      exact Finset.sum_congr rfl (fun p _ => sum_pairEnergies_eq _)
    · by_cases hu : cfg.usersets = true
      · simp [hu]
      · rw [Finset.sum_congr rfl (fun c _ => if_neg hu), if_neg hu]
        rw [Finset.sum_add_distrib, Finset.sum_add_distrib]
        simp [Finset.sum_ite_eq']
  have hR : ∑ b : Fin n, ∑ c : Fin 6, totalAtmnrg ops a cfg cb.1 cb.2 b c
      = (∑ p ∈ pairsFinset n, optPot (pairEval ops a cfg cb.1 cb.2 p.1 p.2))
        + (if cfg.usersets then 0 else
            ((a.angles.zip a.angle_params).map (fun r => angleRecEnergy ops cb.1 cb.2 r)).sum
          + ((a.dihedrals.zip a.dihedral_params).map (fun r => torsionRecEnergy ops cb.1 cb.2 r)).sum
          + ((a.impropers.zip (a.improper_params.map improperParamRow)).map (fun r => torsionRecEnergy ops cb.1 cb.2 r)).sum) := by
    unfold totalAtmnrg
    rw [Finset.sum_congr rfl (fun b _ => Finset.sum_add_distrib), Finset.sum_add_distrib]
    congr 1
    · rw [Finset.sum_congr rfl (fun b _ => Finset.sum_comm), Finset.sum_comm]
      exact Finset.sum_congr rfl (fun p _ => sum_sum_pairAtmnrgOn_eq p.1 p.2 _)
    · by_cases hu : cfg.usersets = true
      · simp [hu]
      · rw [Finset.sum_congr rfl (fun b _ =>
            Finset.sum_congr rfl (fun c _ => if_neg hu)), if_neg hu]
        have inner : ∀ b : Fin n,
            (∑ c : Fin 6,
              ((if c = 3 then ((a.angles.zip a.angle_params).map (fun r => angleRecAtmOn ops cb.1 cb.2 r b)).sum else 0)
              + (if c = 4 then ((a.dihedrals.zip a.dihedral_params).map (fun r => torsionRecAtmOn ops cb.1 cb.2 r b)).sum else 0)
              + (if c = 5 then ((a.impropers.zip (a.improper_params.map improperParamRow)).map (fun r => torsionRecAtmOn ops cb.1 cb.2 r b)).sum else 0)))
            = ((a.angles.zip a.angle_params).map (fun r => angleRecAtmOn ops cb.1 cb.2 r b)).sum
              + ((a.dihedrals.zip a.dihedral_params).map (fun r => torsionRecAtmOn ops cb.1 cb.2 r b)).sum
              + ((a.impropers.zip (a.improper_params.map improperParamRow)).map (fun r => torsionRecAtmOn ops cb.1 cb.2 r b)).sum := by
          intro b
          rw [Finset.sum_add_distrib, Finset.sum_add_distrib]
          simp [Finset.sum_ite_eq']
        rw [Finset.sum_congr rfl (fun b _ => inner b)]
        rw [Finset.sum_add_distrib, Finset.sum_add_distrib]
        rw [finsetSum_listSum (a.angles.zip a.angle_params) (fun r b => angleRecAtmOn ops cb.1 cb.2 r b)]
        rw [finsetSum_listSum (a.dihedrals.zip a.dihedral_params) (fun r b => torsionRecAtmOn ops cb.1 cb.2 r b)]
        rw [finsetSum_listSum (a.impropers.zip (a.improper_params.map improperParamRow)) (fun r b => torsionRecAtmOn ops cb.1 cb.2 r b)]
        rw [funext (fun r => sum_angleRecAtmOn ops cb.1 cb.2 r)]
        rw [funext (fun r => sum_torsionRecAtmOn ops cb.1 cb.2 (r := r))]
  rw [hL, hR]

theorem energies_atmnrg_decomposition_witness :
    ffevaluate1 qOps argsW cfgW (fun _ _ => 0) (fun _ => 0)
        ∈ ffevaluate qOps argsW cfgW [fun _ _ => 0] [fun _ => 0] ∧
      ∑ c : Fin 6, (ffevaluate1 qOps argsW cfgW (fun _ _ => 0) (fun _ => 0)).energies c
        = ∑ b : Fin 2, ∑ c : Fin 6,
            (ffevaluate1 qOps argsW cfgW (fun _ _ => 0) (fun _ => 0)).atmnrg b c :=
  ⟨by simp [ffevaluate],
   energies_atmnrg_decomposition qOps argsW cfgW [fun _ _ => 0] [fun _ => 0] _
     (by simp [ffevaluate])⟩

/-! ### C2: the total force vanishes -/

/-- C2.  For every input and every frame, the total force is the zero
3-vector in exact arithmetic: the pair kernel adds opposite
contributions to the two endpoints, the angle kernel's three force rows
sum to zero (`F_b = -(F_a + F_c)`), and the torsion kernel's four force
rows cancel. -/
theorem total_force_vanishes (ops : NumOps F) {n : ℕ} (a : InitOut F n)
    (cfg : FFConfig F) (cf : List (Fin n → Fin 3 → F)) (bf : List (Fin 3 → F))
    (out : Outputs F n) (hout : out ∈ ffevaluate ops a cfg cf bf) :
    (∀ k : Fin 3, ∑ b : Fin n, out.forces b k = 0) ∧
    (∀ pos prms box k, ∑ t : Fin 3, (evaluate_angles ops pos prms box).2 t k = 0) ∧
    (∀ pos row box k, ∑ d : Fin 4, (evaluate_torsion ops pos row box).2 d k = 0) := by
  refine ⟨?_, fun pos prms box k => evaluate_angles_force_sum ops pos prms box k,
    fun pos row box k => evaluate_torsion_force_sum ops pos row box k⟩
  obtain ⟨cb, _, rfl⟩ := List.mem_map.mp hout
  intro k
  show ∑ b : Fin n, totalForces ops a cfg cb.1 cb.2 b k = 0
  unfold totalForces
  rw [Finset.sum_add_distrib]
  have h1 : (∑ b : Fin n, ∑ p ∈ pairsFinset n,
      pairForceOn p.1 p.2 (pairEval ops a cfg cb.1 cb.2 p.1 p.2) b k) = 0 := by
    rw [Finset.sum_comm]
    rw [Finset.sum_congr rfl (fun p _ => sum_pairForceOn_eq p.1 p.2 _ k)]
    simp
  rw [h1, zero_add]
  by_cases hu : cfg.usersets = true
  · simp [hu]
  · rw [Finset.sum_congr rfl (fun b _ => if_neg hu)]
    rw [Finset.sum_add_distrib, Finset.sum_add_distrib]
    rw [finsetSum_listSum (a.angles.zip a.angle_params) (fun r b => angleRecForceOn ops cb.1 cb.2 r b k)]
    rw [finsetSum_listSum (a.dihedrals.zip a.dihedral_params) (fun r b => torsionRecForceOn ops cb.1 cb.2 r b k)]
    rw [finsetSum_listSum (a.impropers.zip (a.improper_params.map improperParamRow)) (fun r b => torsionRecForceOn ops cb.1 cb.2 r b k)]
    rw [funext (fun r => sum_angleRecForceOn ops cb.1 cb.2 r k)]
    rw [funext (fun r => sum_torsionRecForceOn ops cb.1 cb.2 (r := r) k)]
    simp

theorem total_force_vanishes_witness :
    ffevaluate1 qOps argsW cfgW (fun _ _ => 0) (fun _ => 0)
        ∈ ffevaluate qOps argsW cfgW [fun _ _ => 0] [fun _ => 0] ∧
      ∑ b : Fin 2, (ffevaluate1 qOps argsW cfgW (fun _ _ => 0) (fun _ => 0)).forces b 0 = 0 :=
  ⟨by simp [ffevaluate],
   (total_force_vanishes qOps argsW cfgW [fun _ _ => 0] [fun _ => 0] _
     (by simp [ffevaluate])).1 0⟩

/-! ### C5: between-sets semantics -/

theorem findIJ_eq_none {s : List ℤ} {i j : ℤ} :
    findIJ s i j = none ↔ i ∉ s ∧ j ∉ s := by
  induction s with
  | nil => simp [findIJ]
  | cons e rest ih =>
    unfold findIJ
    by_cases h1 : e = i
    · subst h1; simp
    · by_cases h2 : e = j
      · subst h2; simp [h1]
      · simp [h1, h2, ih, Ne.symm h1, Ne.symm h2]

theorem findIJ_some_true {s : List ℤ} {i j : ℤ} (hi : i ∈ s) (hj : j ∉ s) :
    findIJ s i j = some true := by
  induction s with
  | nil => cases hi
  | cons e rest ih =>
    unfold findIJ
    by_cases h1 : e = i
    · rw [if_pos h1]
    · have h2 : e ≠ j := by
        intro h
        subst h
        exact hj (List.mem_cons_self e rest)
      rw [if_neg h1, if_neg h2]
      rcases List.mem_cons.mp hi with h | h
      · exact absurd h.symm h1
      · exact ih h (fun hm => hj (List.mem_cons_of_mem _ hm))

theorem findIJ_some_false {s : List ℤ} {i j : ℤ} (hi : i ∉ s) (hj : j ∈ s) :
    findIJ s i j = some false := by
  induction s with
  | nil => cases hj
  | cons e rest ih =>
    unfold findIJ
    have h1 : e ≠ i := by
      intro h
      subst h
      exact hi (List.mem_cons_self e rest)
    rw [if_neg h1]
    by_cases h2 : e = j
    · rw [if_pos h2]
    · rw [if_neg h2]
      rcases List.mem_cons.mp hj with h | h
      · exact absurd h.symm h2
      · exact ih (fun hm => hi (List.mem_cons_of_mem _ hm)) h

theorem insets_disjoint_iff (i j : ℤ) (A B : List ℤ)
    (hdisj : ∀ x : ℤ, x ∈ A → x ∉ B) :
    insets i j A B = true ↔ ((i ∈ A ∧ j ∈ B) ∨ (i ∈ B ∧ j ∈ A)) := by
  have core : ∀ s1 s2 : List ℤ, (∀ x : ℤ, x ∈ s1 → x ∉ s2) →
      (((match findIJ s1 i j with
          | none => false
          | some b1 =>
            match findIJ s2 i j with
            | none => false
            | some b2 => b1 != b2) = true)
        ↔ ((i ∈ s1 ∧ j ∈ s2) ∨ (j ∈ s1 ∧ i ∈ s2))) := by
    intro s1 s2 hd
    by_cases hi1 : i ∈ s1
    · have hi2 : i ∉ s2 := hd i hi1
      by_cases hj1 : j ∈ s1
      · have hj2 : j ∉ s2 := hd j hj1
        rw [findIJ_eq_none.mpr ⟨hi2, hj2⟩]
        cases findIJ s1 i j <;> simp [hi2, hj2]
      · rw [findIJ_some_true hi1 hj1]
        by_cases hj2 : j ∈ s2
        · rw [findIJ_some_false hi2 hj2]
          simp [hi1, hj2]
        · rw [findIJ_eq_none.mpr ⟨hi2, hj2⟩]
          simp [hj1, hj2]
    · by_cases hj1 : j ∈ s1
      · have hj2 : j ∉ s2 := hd j hj1
        rw [findIJ_some_false hi1 hj1]
        by_cases hi2 : i ∈ s2
        · rw [findIJ_some_true hi2 hj2]
          simp [hj1, hi2]
        · rw [findIJ_eq_none.mpr ⟨hi2, hj2⟩]
          simp [hi1, hi2]
      · rw [findIJ_eq_none.mpr ⟨hi1, hj1⟩]
        simp [hi1, hj1]
  unfold insets
  by_cases hlen : B.length < A.length
  · rw [if_pos hlen]
    constructor
    · intro h
      rcases (core B A (fun x hb ha => hdisj x ha hb)).mp h with ⟨h1, h2⟩ | ⟨h1, h2⟩
      · exact Or.inr ⟨h1, h2⟩
      · exact Or.inl ⟨h2, h1⟩
    · intro h
      apply (core B A (fun x hb ha => hdisj x ha hb)).mpr
      rcases h with ⟨h1, h2⟩ | ⟨h1, h2⟩
      · exact Or.inr ⟨h2, h1⟩
      · exact Or.inl ⟨h1, h2⟩
  · rw [if_neg hlen]
    constructor
    · intro h
      exact (core A B hdisj).mp h |>.imp id (fun ⟨h1, h2⟩ => ⟨h2, h1⟩)
    · intro h
      apply (core A B hdisj).mpr
      exact h.imp id (fun ⟨h1, h2⟩ => ⟨h2, h1⟩)

theorem scanFind_sentinel_rows {j : ℤ} (l : List (List ℤ)) (i : ℕ)
    (h : ∀ r ∈ l, scanFind r j = none) :
    scanFind (l.getD i []) j = none := by
  by_cases hi : i < l.length
  · have : l.getD i [] = l[i] := List.getD_eq_getElem l [] hi
    rw [this]
    exact h _ (List.getElem_mem hi)
  · rw [List.getD_eq_default l [] (Nat.le_of_not_lt hi)]
    rfl

/-- The packed table built from all-empty rows never pairs anything:
`nestedListToArray` turns it into `[[-1]]` or all-`[-1]` rows, and the
scan stops at the sentinel. -/
theorem ispaired_cleared {n : ℕ} (i : ℕ) (j : ℤ) :
    ispaired (nestedListToArray (List.ofFn (fun _ : Fin n => ([] : List ℤ))) (-1)) i j = false := by
  unfold ispaired
  have hall : ∀ r ∈ nestedListToArray (List.ofFn (fun _ : Fin n => ([] : List ℤ))) (-1),
      scanFind r (j := j) = none := by
    intro r hr
    unfold nestedListToArray at hr
    by_cases he : (List.ofFn (fun _ : Fin n => ([] : List ℤ))).isEmpty
    · rw [if_pos he] at hr
      simp at hr
      subst hr
      rfl
    · rw [if_neg he, if_pos (by simp)] at hr
      obtain ⟨r0, _, hre⟩ := List.mem_map.mp hr
      rw [← hre]
      rfl
  rw [scanFind_sentinel_rows _ i hall]
  rfl

/-- With the bond table cleared, a pair-loop iteration never adds a bond
potential. -/
theorem pairEnergies_bond_zero (ops : NumOps F) {n : ℕ} (a : InitOut F n)
    (cfg : FFConfig F) (coords : Fin n → Fin 3 → F) (box : Fin 3 → F) (i j : Fin n)
    (hb : ispaired a.bonda i.val ((j.val : ℤ)) = false) :
    pairEnergies (pairEval ops a cfg coords box i j) 0 = 0 := by
  simp only [pairEval, hb, Bool.false_eq_true, if_false]
  split
  · rfl
  · split
    · rfl
    · split
      · rfl
      · simp [pairEnergies]

/-- The pair loop never touches the angle, dihedral and improper energy
rows. -/
theorem pairEnergies_high_zero (t : Option (PairTerms F)) :
    pairEnergies t 3 = 0 ∧ pairEnergies t 4 = 0 ∧ pairEnergies t 5 = 0 := by
  cases t <;> exact ⟨rfl, rfl, rfl⟩

/-- C5 (counterexample to the claim).  With the overlapping sets
`A = [5]`, `B = [5, 3]`, the pair `(3, 5)` satisfies the symmetric
predicate (3 is in B and 5 is in A) but `_insets` returns false, so the
pair is skipped: the first loop breaks on 5 with `jfound = 1`, the
second loop also breaks on 5 with `jfound = 2`, and `ifound` is never
set. -/
theorem insets_overlap_counterexample :
    insets 3 5 [5] [5, 3] = false ∧
      (((3 : ℤ) ∈ ([5] : List ℤ) ∧ (5 : ℤ) ∈ ([5, 3] : List ℤ)) ∨
       ((3 : ℤ) ∈ ([5, 3] : List ℤ) ∧ (5 : ℤ) ∈ ([5] : List ℤ))) := by
  constructor
  · rfl
  · exact Or.inr ⟨by decide, by decide⟩

/-- C5 (amended).  When the two between-sets are disjoint and at least
one is nonempty: `_insets` decides exactly the symmetric predicate
`(i in A and j in B) or (i in B and j in A)`; every pair for which
`_insets` is false is skipped by the pair loop and contributes nothing;
and the bond, angle, dihedral and improper energy components are zero
for every frame (the constructor clears the bonded topology and the
evaluator skips the bonded loops).  For overlapping sets the predicate
claim fails (see the counterexample). -/
theorem betweensets_semantics_disjoint (ops : NumOps F) (mol : Mol F)
    (prm : PrmSet F) (A B : List ℤ) (cutoff : F) (rfa : Bool) (sd : F)
    (hdisj : ∀ x : ℤ, x ∈ A → x ∉ B) (hne : A ≠ [] ∨ B ≠ []) :
    (∀ i j : ℤ, insets i j A B = true ↔ ((i ∈ A ∧ j ∈ B) ∨ (i ∈ B ∧ j ∈ A))) ∧
    (∀ con : Constructed F mol.natoms,
      FFEvaluateInit ops mol prm (some (A, B)) cutoff rfa sd = .ok con →
        (∀ (coords : Fin mol.natoms → Fin 3 → F) (box : Fin 3 → F)
            (i j : Fin mol.natoms),
            insets ((i.val : ℤ)) ((j.val : ℤ)) A B = false →
            pairEval ops con.args con.cfg coords box i j = none) ∧
        (∀ (cf : List (Fin mol.natoms → Fin 3 → F)) (bf : List (Fin 3 → F)),
            ∀ out ∈ ffevaluate ops con.args con.cfg cf bf,
              out.energies 0 = 0 ∧ out.energies 3 = 0 ∧
              out.energies 4 = 0 ∧ out.energies 5 = 0)) := by
  constructor
  · intro i j
    exact insets_disjoint_iff i j A B hdisj
  · intro con hcon
    have hme : ∀ x, Except.ok x = FFEvaluateInit ops mol prm (some (A, B)) cutoff rfa sd →
        ∃ a0, init ops { mol with bonds := [], angles := [], dihedrals := [], impropers := [] } prm
            = .ok a0 ∧ x = Constructed.mk a0 ⟨A, B, cutoff, rfa, sd⟩ := by
      intro x hx
      unfold FFEvaluateInit at hx
      cases hini : init ops { mol with bonds := [], angles := [], dihedrals := [], impropers := [] } prm with
      | error e => rw [hini] at hx; cases hx
      | ok a0 =>
        rw [hini] at hx
        cases hx
        exact ⟨a0, rfl, rfl⟩
    obtain ⟨a0, hini, hcone⟩ := hme con hcon.symm
    have hset : con.cfg = ⟨A, B, cutoff, rfa, sd⟩ := by rw [hcone]
    have husers : con.cfg.usersets = true := by
      rw [hset]
      unfold FFConfig.usersets
      rcases hne with h | h
      · simp [List.length_pos.mpr h]
      · simp [List.length_pos.mpr h]
    have hbonda : con.args.bonda
        = nestedListToArray (List.ofFn (fun _ : Fin mol.natoms => ([] : List ℤ))) (-1) := by
      rw [hcone]
      show a0.bonda = _
      unfold init at hini
      cases hm : (uqtypesOf mol.atomtype).mapM
          (fun t => (alookup prm.atom_types t).elim
            (Except.error InitError.missingAtomType) Except.ok) with
      | error e =>
        simp only [hm] at hini
        exact Except.noConfusion hini
      | ok atp =>
        simp only [hm] at hini
        injection hini with h
        rw [← h]
    have hbfalse : ∀ (i j : Fin mol.natoms),
        ispaired con.args.bonda i.val ((j.val : ℤ)) = false := by
      intro i j
      rw [hbonda]
      exact ispaired_cleared i.val (j.val : ℤ)
    constructor
    · intro coords box i j hins
      have hs1 : con.cfg.set1 = A := by rw [hset]
      have hs2 : con.cfg.set2 = B := by rw [hset]
      have hc1 : (con.cfg.usersets &&
          !insets ((i.val : ℤ)) ((j.val : ℤ)) con.cfg.set1 con.cfg.set2) = true := by
        rw [husers, hs1, hs2, hins]
        rfl
      simp [pairEval, hc1]
    · intro cf bf out hout
      obtain ⟨cb, _, rfl⟩ := List.mem_map.mp hout
      have hpair0 : ∀ p ∈ pairsFinset mol.natoms,
          pairEnergies (pairEval ops con.args con.cfg cb.1 cb.2 p.1 p.2) 0 = 0 := by
        intro p _
        exact pairEnergies_bond_zero ops con.args con.cfg cb.1 cb.2 p.1 p.2 (hbfalse p.1 p.2)
      refine ⟨?_, ?_, ?_, ?_⟩
      · show totalEnergies ops con.args con.cfg cb.1 cb.2 0 = 0
        unfold totalEnergies
        rw [Finset.sum_congr rfl hpair0]
        simp [husers]
      · show totalEnergies ops con.args con.cfg cb.1 cb.2 3 = 0
        unfold totalEnergies
        rw [Finset.sum_congr rfl
          (fun p _ => (pairEnergies_high_zero (pairEval ops con.args con.cfg cb.1 cb.2 p.1 p.2)).1)]
        simp [husers]
      · show totalEnergies ops con.args con.cfg cb.1 cb.2 4 = 0
        unfold totalEnergies
        rw [Finset.sum_congr rfl
          (fun p _ => (pairEnergies_high_zero (pairEval ops con.args con.cfg cb.1 cb.2 p.1 p.2)).2.1)]
        simp [husers]
      · show totalEnergies ops con.args con.cfg cb.1 cb.2 5 = 0
        unfold totalEnergies
        rw [Finset.sum_congr rfl
          (fun p _ => (pairEnergies_high_zero (pairEval ops con.args con.cfg cb.1 cb.2 p.1 p.2)).2.2)]
        simp [husers]

theorem betweensets_semantics_disjoint_witness :
    insets 0 1 [0] [1] = true ↔
      (((0 : ℤ) ∈ ([0] : List ℤ) ∧ (1 : ℤ) ∈ ([1] : List ℤ)) ∨
       ((0 : ℤ) ∈ ([1] : List ℤ) ∧ (1 : ℤ) ∈ ([0] : List ℤ))) :=
  (betweensets_semantics_disjoint qOps molW2 prmW [0] [1] 0 false 1
    (by decide) (Or.inl (by decide))).1 0 1

/-! ### C7: duplicate dihedrals are idempotent -/

theorem dihStep_already {n : ℕ} (ops : NumOps F) (uq : List ℕ) (tyint : Fin n → ℕ)
    (prm : PrmSet F) (st st' : DihSt F n) (d : Fin 4 → Fin n)
    (h : dihStep ops uq tyint prm st d = .ok st') :
    (∀ x ∈ st.already, x ∈ st'.already) ∧
      List.insertionSort (· ≤ ·) (List.ofFn d) ∈ st'.already := by
  unfold dihStep at h
  by_cases hsr : List.insertionSort (· ≤ ·) (List.ofFn d) ∈ st.already
  · rw [if_pos hsr] at h
    cases h
    exact ⟨fun x hx => hx, hsr⟩
  · rw [if_neg hsr] at h
    cases hdl : dihLookup prm ((List.ofFn d).map (tyOfAtom uq tyint)) with
    | error e => rw [hdl] at h; cases h
    | ok l =>
      rw [hdl] at h
      cases l with
      | nil => cases h
      | cons d0 rest =>
        cases h
        exact ⟨fun x hx => List.mem_append_left _ hx,
               List.mem_append_right _ (List.mem_singleton.mpr rfl)⟩

theorem dihGo_already {n : ℕ} (ops : NumOps F) (uq : List ℕ) (tyint : Fin n → ℕ)
    (prm : PrmSet F) (ds : List (Fin 4 → Fin n)) :
    ∀ (st st' : DihSt F n), dihGo ops uq tyint prm st ds = .ok st' →
      (∀ x ∈ st.already, x ∈ st'.already) ∧
        (∀ d ∈ ds, List.insertionSort (· ≤ ·) (List.ofFn d) ∈ st'.already) := by
  induction ds with
  | nil =>
    intro st st' h
    cases h
    exact ⟨fun x hx => hx, by simp⟩
  | cons d rest ih =>
    intro st st' h
    unfold dihGo at h
    cases hs : dihStep ops uq tyint prm st d with
    | error e => rw [hs] at h; cases h
    | ok st2 =>
      rw [hs] at h
      obtain ⟨hsub, hd⟩ := dihStep_already ops uq tyint prm st st2 d hs
      obtain ⟨hsub2, hall⟩ := ih st2 st' h
      refine ⟨fun x hx => hsub2 x (hsub x hx), ?_⟩
      intro e he
      rcases List.mem_cons.mp he with he | he
      · subst he
        exact hsub2 _ hd
      · exact hall e he

theorem dihStep_dup {n : ℕ} (ops : NumOps F) (uq : List ℕ) (tyint : Fin n → ℕ)
    (prm : PrmSet F) (st : DihSt F n) (d : Fin 4 → Fin n)
    (h : List.insertionSort (· ≤ ·) (List.ofFn d) ∈ st.already) :
    dihStep ops uq tyint prm st d = .ok { st with rows := st.rows ++ [[]] } := by
  unfold dihStep
  rw [if_pos h]

theorem dihGo_append_dup {n : ℕ} (ops : NumOps F) (uq : List ℕ) (tyint : Fin n → ℕ)
    (prm : PrmSet F) (dup : Fin 4 → Fin n) (ds : List (Fin 4 → Fin n)) :
    ∀ st : DihSt F n,
      (List.insertionSort (· ≤ ·) (List.ofFn dup) ∈ st.already ∨
        ∃ d ∈ ds, List.insertionSort (· ≤ ·) (List.ofFn dup)
          = List.insertionSort (· ≤ ·) (List.ofFn d)) →
      dihGo ops uq tyint prm st (ds ++ [dup])
        = (dihGo ops uq tyint prm st ds).map
            (fun st' => { st' with rows := st'.rows ++ [[]] }) := by
  induction ds with
  | nil =>
    intro st hst
    have hmem : List.insertionSort (· ≤ ·) (List.ofFn dup) ∈ st.already := by
      rcases hst with h | ⟨d, hd, _⟩
      · exact h
      · cases hd
    show dihGo ops uq tyint prm st [dup] = _
    unfold dihGo
    rw [dihStep_dup ops uq tyint prm st dup hmem]
    rfl
  | cons d rest ih =>
    intro st hst
    show dihGo ops uq tyint prm st (d :: (rest ++ [dup])) = _
    unfold dihGo
    cases hs : dihStep ops uq tyint prm st d with
    | error e => rfl
    | ok st2 =>
      have hst2 : List.insertionSort (· ≤ ·) (List.ofFn dup) ∈ st2.already ∨
          ∃ d' ∈ rest, List.insertionSort (· ≤ ·) (List.ofFn dup)
            = List.insertionSort (· ≤ ·) (List.ofFn d') := by
        obtain ⟨hsub, hd⟩ := dihStep_already ops uq tyint prm st st2 d hs
        rcases hst with h | ⟨d', hd', heq⟩
        · exact Or.inl (hsub _ h)
        · rcases List.mem_cons.mp hd' with h' | h'
          · subst h'
            exact Or.inl (heq ▸ hd)
          · exact Or.inr ⟨d', h', heq⟩
      exact ih st2 hst2

theorem dihStep_rows_len {n : ℕ} (ops : NumOps F) (uq : List ℕ) (tyint : Fin n → ℕ)
    (prm : PrmSet F) (st st' : DihSt F n) (d : Fin 4 → Fin n)
    (h : dihStep ops uq tyint prm st d = .ok st') :
    st'.rows.length = st.rows.length + 1 := by
  unfold dihStep at h
  by_cases hsr : List.insertionSort (· ≤ ·) (List.ofFn d) ∈ st.already
  · rw [if_pos hsr] at h
    cases h
    simp
  · rw [if_neg hsr] at h
    cases hdl : dihLookup prm ((List.ofFn d).map (tyOfAtom uq tyint)) with
    | error e => rw [hdl] at h; cases h
    | ok l =>
      rw [hdl] at h
      cases l with
      | nil => cases h
      | cons d0 rest =>
        cases h
        simp

theorem dihGo_rows_len {n : ℕ} (ops : NumOps F) (uq : List ℕ) (tyint : Fin n → ℕ)
    (prm : PrmSet F) (ds : List (Fin 4 → Fin n)) :
    ∀ (st st' : DihSt F n), dihGo ops uq tyint prm st ds = .ok st' →
      st'.rows.length = st.rows.length + ds.length := by
  induction ds with
  | nil =>
    intro st st' h
    cases h
    simp
  | cons d rest ih =>
    intro st st' h
    unfold dihGo at h
    cases hs : dihStep ops uq tyint prm st d with
    | error e => rw [hs] at h; cases h
    | ok st2 =>
      rw [hs] at h
      have h1 := dihStep_rows_len ops uq tyint prm st st2 d hs
      have h2 := ih st2 st' h
      rw [h2, h1]
      simp
      omega

theorem maxWidth_append_empty {α : Type} (rows : List (List α)) :
    maxWidth (rows ++ [[]]) = maxWidth rows := by
  unfold maxWidth
  rw [List.map_append, List.foldr_append]
  rfl

theorem nestedListToArray_append_empty {α : Type} (rows : List (List α)) (dflt : α)
    (hne : rows ≠ []) :
    ∃ w, nestedListToArray (rows ++ [[]]) dflt
        = nestedListToArray rows dflt ++ [List.replicate w dflt] := by
  have h1 : (rows ++ [[]]).isEmpty = false := by simp
  have h2 : rows.isEmpty = false := by simp [hne]
  by_cases hall : (rows.all fun r => r.isEmpty) = true
  · have hall2 : ((rows ++ [[]]).all fun r => r.isEmpty) = true := by
      rw [List.all_append, hall]
      rfl
    refine ⟨1, ?_⟩
    unfold nestedListToArray
    simp only [h1, h2, hall, hall2, Bool.false_eq_true, if_false, if_true, List.map_append]
    rfl
  · have hallf : (rows.all fun r => r.isEmpty) = false := Bool.eq_false_iff.mpr hall
    have hall2 : ((rows ++ [[]]).all fun r => r.isEmpty) = false := by
      rw [List.all_append, hallf]
      rfl
    refine ⟨maxWidth rows, ?_⟩
    unfold nestedListToArray
    simp only [h1, h2, hallf, hall2, Bool.false_eq_true, if_false, maxWidth_append_empty,
      List.map_append]
    rfl

theorem ntorsionsOf_replicate_none (w : ℕ) :
    ntorsionsOf (List.replicate w (none : Option F)) = 0 := by
  cases w with
  | zero =>
    show ntorsionsOf [] = 0
    simp [ntorsionsOf]
  | succ k =>
    show ntorsionsOf (none :: List.replicate k none) = 0
    simp [ntorsionsOf, List.findIdx?_cons]

theorem evaluate_torsion_sentinel (ops : NumOps F) (pos : Fin 4 → Fin 3 → F)
    (w : ℕ) (box : Fin 3 → F) :
    (evaluate_torsion ops pos (List.replicate w none) box).1 = 0 ∧
      ∀ d k, (evaluate_torsion ops pos (List.replicate w none) box).2 d k = 0 := by
  unfold evaluate_torsion
  rw [ntorsionsOf_replicate_none]
  simp only [Finset.range_zero, Finset.sum_empty]
  constructor
  · trivial
  · intro d k
    show torsionForce _ _ _ d k = 0
    unfold torsionForce
    have hz : ∀ x : F, (-(0 : F) * ops.sqrt (dot3 (ops.dihAngle pos box).2.2.1 (ops.dihAngle pos box).2.2.1)) / x = 0 := by
      intro x
      rw [neg_zero, zero_mul, zero_div]
    split
    · simp [hz]
    · split
      · simp [hz]
      · split
        · simp [hz]
        · simp [hz]

theorem torsionRec_sentinel (ops : NumOps F) {n : ℕ} (coords : Fin n → Fin 3 → F)
    (box : Fin 3 → F) (dup : Fin 4 → Fin n) (w : ℕ) :
    torsionRecEnergy ops coords box (dup, List.replicate w none) = 0 ∧
      (∀ b k, torsionRecForceOn ops coords box (dup, List.replicate w none) b k = 0) ∧
      (∀ b, torsionRecAtmOn ops coords box (dup, List.replicate w none) b = 0) := by
  obtain ⟨h1, h2⟩ := evaluate_torsion_sentinel ops (fun t => coords (dup t)) w box
  refine ⟨h1, ?_, ?_⟩
  · intro b k
    unfold torsionRecForceOn
    rw [Finset.sum_congr rfl (fun t _ => ?_)]
    · exact Finset.sum_const_zero
    · rw [h2 t k, ite_self]
  · intro b
    unfold torsionRecAtmOn
    rw [Finset.sum_congr rfl (fun t _ => ?_)]
    · exact Finset.sum_const_zero
    · rw [h1, zero_div, ite_self]

theorem ffevaluate1_dih_sentinel (ops : NumOps F) {n : ℕ} (a : InitOut F n)
    (cfg : FFConfig F) (coords : Fin n → Fin 3 → F) (box : Fin 3 → F)
    (dup : Fin 4 → Fin n) (w : ℕ)
    (hlen : a.dihedrals.length = a.dihedral_params.length) :
    ffevaluate1 ops
        { a with dihedrals := a.dihedrals ++ [dup],
                 dihedral_params := a.dihedral_params ++ [List.replicate w none] }
        cfg coords box
      = ffevaluate1 ops a cfg coords box := by
  obtain ⟨hz1, hz2, hz3⟩ := torsionRec_sentinel ops coords box dup w
  have hzip : (a.dihedrals ++ [dup]).zip (a.dihedral_params ++ [List.replicate w none])
      = a.dihedrals.zip a.dihedral_params ++ [(dup, List.replicate w none)] := by
    rw [List.zip_append hlen]
    rfl
  have hpe : pairEval ops
      { a with dihedrals := a.dihedrals ++ [dup],
               dihedral_params := a.dihedral_params ++ [List.replicate w none] }
      cfg coords box = pairEval ops a cfg coords box := rfl
  unfold ffevaluate1
  have he : totalEnergies ops
      { a with dihedrals := a.dihedrals ++ [dup],
               dihedral_params := a.dihedral_params ++ [List.replicate w none] }
      cfg coords box = totalEnergies ops a cfg coords box := by
    funext c
    unfold totalEnergies
    simp only [hpe, hzip, List.map_append, List.sum_append, List.map_cons, List.map_nil,
      List.sum_cons, List.sum_nil, hz1, add_zero]
  have hf : totalForces ops
      { a with dihedrals := a.dihedrals ++ [dup],
               dihedral_params := a.dihedral_params ++ [List.replicate w none] }
      cfg coords box = totalForces ops a cfg coords box := by
    funext b k
    unfold totalForces
    simp only [hpe, hzip, List.map_append, List.sum_append, List.map_cons, List.map_nil,
      List.sum_cons, List.sum_nil, hz2, add_zero]
  have ha : totalAtmnrg ops
      { a with dihedrals := a.dihedrals ++ [dup],
               dihedral_params := a.dihedral_params ++ [List.replicate w none] }
      cfg coords box = totalAtmnrg ops a cfg coords box := by
    funext b c
    unfold totalAtmnrg
    simp only [hpe, hzip, List.map_append, List.sum_append, List.map_cons, List.map_nil,
      List.sum_cons, List.sum_nil, hz3, add_zero]
  rw [he, hf, ha]

theorem ffevaluate_dih_sentinel (ops : NumOps F) {n : ℕ} (a : InitOut F n)
    (cfg : FFConfig F) (cf : List (Fin n → Fin 3 → F)) (bf : List (Fin 3 → F))
    (dup : Fin 4 → Fin n) (w : ℕ)
    (hlen : a.dihedrals.length = a.dihedral_params.length) :
    ffevaluate ops
        { a with dihedrals := a.dihedrals ++ [dup],
                 dihedral_params := a.dihedral_params ++ [List.replicate w none] }
        cfg cf bf
      = ffevaluate ops a cfg cf bf := by
  unfold ffevaluate
  generalize cf.zip bf = l
  induction l with
  | nil => rfl
  | cons x xs ih =>
    rw [List.map_cons, List.map_cons, ih,
      ffevaluate1_dih_sentinel ops a cfg x.1 x.2 dup w hlen]

theorem ffevaluate_dih_mk (ops : NumOps F) {n : ℕ}
    {typeint : Fin n → ℕ} {excl : List (List ℤ)}
    {nbfix : List (ℤ × ℤ × F × F × F × F)} {sigma sigma14 epsilon epsilon14 : List F}
    {s14a e14a : List (List ℤ)} {s14v e14v : List (List (Option F))}
    {bonda : List (List ℤ)} {bondv : List (List (Option F))} {elecFactor : F}
    {charge : Fin n → F} {angles : List (Fin 3 → Fin n)} {angle_params : List (F × F)}
    {impropers : List (Fin 4 → Fin n)} {improper_params : List (F × F × F)}
    {ds : List (Fin 4 → Fin n)} {ps : List (List (Option F))}
    (cfg : FFConfig F) (cf : List (Fin n → Fin 3 → F)) (bf : List (Fin 3 → F))
    (dup : Fin 4 → Fin n) (w : ℕ) (hlen : ds.length = ps.length) :
    ffevaluate ops
        ⟨typeint, excl, nbfix, sigma, sigma14, epsilon, epsilon14, s14a, e14a, s14v,
         e14v, bonda, bondv, elecFactor, charge, angles, angle_params,
         ds ++ [dup], ps ++ [List.replicate w none], impropers, improper_params⟩
        cfg cf bf
      = ffevaluate ops
          ⟨typeint, excl, nbfix, sigma, sigma14, epsilon, epsilon14, s14a, e14a, s14v,
           e14v, bonda, bondv, elecFactor, charge, angles, angle_params,
           ds, ps, impropers, improper_params⟩
          cfg cf bf :=
  ffevaluate_dih_sentinel ops
    ⟨typeint, excl, nbfix, sigma, sigma14, epsilon, epsilon14, s14a, e14a, s14v,
     e14v, bonda, bondv, elecFactor, charge, angles, angle_params,
     ds, ps, impropers, improper_params⟩
    cfg cf bf dup w hlen

theorem nestedListToArray_length {α : Type} (rows : List (List α)) (dflt : α)
    (hne : rows ≠ []) :
    (nestedListToArray rows dflt).length = rows.length := by
  unfold nestedListToArray
  rw [if_neg (by simp [hne])]
  by_cases hall : (rows.all fun r => r.isEmpty) = true
  · rw [if_pos hall]
    simp
  · rw [if_neg hall]
    simp

/-- C7.  Appending a dihedral whose sorted atom quadruple equals that of
an existing entry leaves all energies, all forces and all per-atom
attributions unchanged for every coordinate frame: the duplicate is
skipped during indexing, its parameter row stays empty, the packed row
is all sentinel, and the torsion kernel contributes zero potential and
zero force for it. -/
theorem duplicate_dihedral_idempotent (ops : NumOps F) (mol : Mol F) (prm : PrmSet F)
    (dup : Fin 4 → Fin mol.natoms)
    (hdup : List.insertionSort (· ≤ ·) (List.ofFn dup)
        ∈ mol.dihedrals.map (fun d => List.insertionSort (· ≤ ·) (List.ofFn d)))
    (cfg : FFConfig F) (cf : List (Fin mol.natoms → Fin 3 → F))
    (bf : List (Fin 3 → F)) :
    (init ops { mol with dihedrals := mol.dihedrals ++ [dup] } prm).map
        (fun a => ffevaluate ops a cfg cf bf)
      = (init ops mol prm).map (fun a => ffevaluate ops a cfg cf bf) := by
  obtain ⟨d0, hd0, hd0e⟩ := List.mem_map.mp hdup
  have hne1 : mol.dihedrals ≠ [] := List.ne_nil_of_mem hd0
  unfold init
  cases hm : (uqtypesOf mol.atomtype).mapM
      (fun t => (alookup prm.atom_types t).elim
        (Except.error InitError.missingAtomType) Except.ok) with
  | error e => simp only [hm]
  | ok atp =>
    simp only [hm]
    cases hb : mol.bonds.foldlM
        (bondStep (uqtypesOf mol.atomtype) (typeintOf mol.atomtype) prm)
        ⟨fun _ => [], fun _ => [], fun _ => []⟩ with
    | error e => simp only [hb]
    | ok bst =>
      simp only [hb]
      cases hap : buildAngleParams ops (uqtypesOf mol.atomtype) (typeintOf mol.atomtype)
          prm mol.angles with
      | error e => simp only [hap]
      | ok aps =>
        simp only [hap]
        have hdd := dihGo_append_dup ops (uqtypesOf mol.atomtype) (typeintOf mol.atomtype)
          prm dup mol.dihedrals
          ⟨fun _ => [], fun _ => [], fun _ => [], fun _ => [], [], []⟩
          (Or.inr ⟨d0, hd0, hd0e.symm⟩)
        rw [hdd]
        cases hd : dihGo ops (uqtypesOf mol.atomtype) (typeintOf mol.atomtype) prm
            ⟨fun _ => [], fun _ => [], fun _ => [], fun _ => [], [], []⟩ mol.dihedrals with
        | error e => simp only [hd, Except.map]
        | ok dst =>
          simp only [hd, Except.map]
          cases him : mol.impropers.mapM
              (fun im => resolveImproper prm (uqtypesOf mol.atomtype)
                (typeintOf mol.atomtype) mol.bonds im) with
          | error e => simp only [him]
          | ok imps =>
            simp only [him]
            have hrl : dst.rows.length = mol.dihedrals.length := by
              have h := dihGo_rows_len ops (uqtypesOf mol.atomtype) (typeintOf mol.atomtype)
                prm mol.dihedrals _ _ hd
              simpa using h
            have hne2 : dst.rows.map (fun r => r.map some) ≠ [] := by
              simp only [ne_eq, List.map_eq_nil_iff]
              intro hcon
              rw [hcon] at hrl
              exact hne1 (List.length_eq_zero.mp hrl.symm)
            obtain ⟨w, hw⟩ :=
              nestedListToArray_append_empty (dst.rows.map (fun r => r.map some)) none hne2
            have hmapapp : (dst.rows ++ [[]]).map (fun r : List F => r.map some)
                = dst.rows.map (fun r => r.map some) ++ [[]] := by
              rw [List.map_append]
              rfl
            rw [hmapapp, hw]
            have hlen2 : mol.dihedrals.length
                = (nestedListToArray (dst.rows.map (fun r => r.map some)) none).length := by
              rw [nestedListToArray_length _ _ hne2, List.length_map, hrl]
            exact congrArg Except.ok (ffevaluate_dih_mk ops cfg cf bf dup w hlen2)

theorem duplicate_dihedral_idempotent_witness :
    (List.insertionSort (· ≤ ·) (List.ofFn (fun t : Fin 4 => t))
        ∈ molDih.dihedrals.map (fun d => List.insertionSort (· ≤ ·) (List.ofFn d))) ∧
      (init qOps { molDih with dihedrals := molDih.dihedrals ++ [fun t => t] } prmDih).map
          (fun a => ffevaluate qOps a cfgW [] [])
        = (init qOps molDih prmDih).map (fun a => ffevaluate qOps a cfgW [] []) :=
  ⟨by decide,
   duplicate_dihedral_idempotent qOps molDih prmDih (fun t => t) (by decide) cfgW [] []⟩

end FFEval
